import Mathlib

/-!
Verification of the arithmetic-expression calculator in `Calculator.py`
(`class HoldenRowlandCalculator`).

Shallow embedding conventions:
* Python strings are modelled as `List Char`; Python string indexing and
  slicing (including negative-index wrap-around) are modelled by `pyIndex`
  and `pySlice`; an out-of-range index (Python `IndexError`) and a failed
  `float(...)` conversion (Python `ValueError`) are modelled by `Option`
  results, `none` standing for an uncaught Python exception that aborts
  the program.
* Python `float` values are modelled by `ℚ`.  On the integer-valued inputs
  exercised below, IEEE-754 double arithmetic is exact, so the rational
  model agrees with the source.  `str(float)` / `str(int)` conversion is
  modelled by `pyStrNum`; real exponentiation with a non-integer exponent
  (never reached in any statement proved here) is modelled by the
  computable approximation `qRpowApprox`.
* `print(...)` calls of `calculate` / `evaluate_expression` are modelled by
  an output log of `Msg` values, so that statements can talk about which
  messages were emitted and which error was reported.
* Unbounded `while` loops and the recursion of `evaluate_expression` are
  modelled with explicit fuel; the fuel bounds are justified by lemmas
  below (each loop strictly shrinks the string / removes a bracket).
-/

attribute [local semireducible] Rat.add Rat.sub Rat.mul Rat.inv

namespace HoldenRowland

/-- Total character access used in specification statements: `l.getD i ' '`. -/
def charAt (l : List Char) (i : Nat) : Char := l.getD i ' '

/-- Python index normalisation for slices: negative indices count from the
end, then the result is clamped into `[0, len]`. -/
def pyBound (len : Nat) (i : Int) : Nat :=
  if i < 0 then ((len : Int) + i).toNat
  else if i.toNat ≤ len then i.toNat else len

/-- Python slice `l[a:b]`. -/
def pySlice (l : List Char) (a b : Int) : List Char :=
  (l.take (pyBound l.length b)).drop (pyBound l.length a)

/-- Python indexing `l[i]`: negative indices wrap once from the end;
out-of-range access is an `IndexError`, modelled by `none`. -/
def pyIndex (l : List Char) (i : Int) : Option Char :=
  if 0 ≤ i then l.get? i.toNat
  else if 0 ≤ (l.length : Int) + i then l.get? ((l.length : Int) + i).toNat
  else none

/-- `self._OPERATORS` (same elements as the list and the set in `__init__`). -/
def OPERATORS : List Char := ['*', '/', '+', '-', '^', '%']

/-- The opening-bracket characters `"([\x7b"`. -/
def openersL : List Char := ['(', '[', '\x7b']

/-- The closing-bracket characters `")]\x7d"`. -/
def closersL : List Char := [')', ']', '\x7d']

/-- All six bracket characters. -/
def bracketsL : List Char := ['(', '[', '\x7b', ')', ']', '\x7d']

/-- The `pairs` dictionary of `return_bal_paren_or_ambiguous`: the opener
matching a closer. -/
def pairOf (c : Char) : Char :=
  if c = ')' then '(' else if c = ']' then '[' else '\x7b'

/-- Python substring test `pat in s`. -/
def occursIn (pat : List Char) : List Char → Bool
  | [] => pat.isEmpty
  | c :: rest => pat.isPrefixOf (c :: rest) || occursIn pat rest

/-- Python `s.find(pat)` for a (non-empty) pattern: index of the first
occurrence, `-1` if absent. -/
def findSubPos (pat : List Char) : List Char → Int
  | [] => if pat.isEmpty then 0 else -1
  | c :: rest =>
    if pat.isPrefixOf (c :: rest) then 0
    else
      let r := findSubPos pat rest
      if r = -1 then -1 else r + 1

/-- First index `≥ start` holding character `c` (`s.find(c, start)`), as
an option. -/
def findCharFromAux (c : Char) (start : Nat) : List Char → Nat → Option Nat
  | [], _ => none
  | x :: rest, i =>
    if start ≤ i ∧ x = c then some i else findCharFromAux c start rest (i + 1)

/-- Python `s.find(c, start)`: `-1` when absent. -/
def findCharFrom (l : List Char) (c : Char) (start : Nat) : Int :=
  match findCharFromAux c start l 0 with
  | none => -1
  | some i => (i : Int)

/-- Index of the last occurrence of `c`, as an option. -/
def rfindNat (c : Char) : List Char → Option Nat
  | [] => none
  | x :: rest =>
    match rfindNat c rest with
    | some k => some (k + 1)
    | none => if x = c then some 0 else none

/-- Python `s.rfind(c)`: `-1` when absent. -/
def rfindChar (l : List Char) (c : Char) : Int :=
  match rfindNat c l with
  | none => -1
  | some i => (i : Int)

/-- Fueled worker for `replaceAll`; the fuel is an upper bound on the
number of characters consumed, set to `s.length` by the wrapper. -/
def replaceAllAux (pat rep : List Char) : Nat → List Char → List Char
  | _, [] => []
  | 0, s => s
  | fuel + 1, c :: rest =>
    if pat.isPrefixOf (c :: rest) then
      rep ++ replaceAllAux pat rep fuel (rest.drop (pat.length - 1))
    else
      c :: replaceAllAux pat rep fuel rest

/-- Python `s.replace(pat, rep)`: replaces every non-overlapping occurrence,
left to right. -/
def replaceAll (pat rep s : List Char) : List Char :=
  replaceAllAux pat rep s.length s

/-- Replacement of only the FIRST occurrence.  This definition follows the
words of the specification ("replace the first textual occurrence"); it is
compared against the source's `replaceAll` behaviour. -/
def replaceFirstOccurrence (pat rep : List Char) : List Char → List Char
  | [] => []
  | c :: rest =>
    if pat.isPrefixOf (c :: rest) then rep ++ rest.drop (pat.length - 1)
    else c :: replaceFirstOccurrence pat rep rest

/-- The decimal digit character for `n % 10`. -/
def digitChar (n : Nat) : Char :=
  match n with
  | 0 => '0' | 1 => '1' | 2 => '2' | 3 => '3' | 4 => '4'
  | 5 => '5' | 6 => '6' | 7 => '7' | 8 => '8' | _ => '9'

/-- Decimal digits of a natural number (fueled, most significant first). -/
def natDigitsAux : Nat → Nat → List Char
  | 0, _ => []
  | fuel + 1, n =>
    if n < 10 then [digitChar n]
    else natDigitsAux fuel (n / 10) ++ [digitChar (n % 10)]

/-- Decimal digits of a natural number. -/
def natDigits (n : Nat) : List Char := natDigitsAux (n + 1) n

/-- Python `str` of an `int`. -/
def intStr (n : Int) : List Char :=
  if n < 0 then '-' :: natDigits n.natAbs else natDigits n.toNat

/-- Fractional decimal digits of `x` (`0 ≤ x < 1`), most significant
first, up to `fuel` digits. -/
def fracDigitsAux : Nat → ℚ → List Char
  | 0, _ => []
  | fuel + 1, x =>
    let d := (x * 10).floor
    digitChar d.toNat :: fracDigitsAux fuel (x * 10 - d)

/-- Drop trailing `'0'` characters. -/
def trimZeros (l : List Char) : List Char :=
  (l.reverse.dropWhile (· = '0')).reverse

/-- Absolute value on `ℚ`, written out so that it evaluates by kernel
reduction. -/
def ratAbs (q : ℚ) : ℚ := if q < 0 then -q else q

/-- Model of Python `str` on a non-integer `float` value: sign, integer
part, `'.'`, then the fractional digits.  Python prints the shortest
decimal that round-trips through the binary double; for the terminating
decimals produced by the expressions considered here the two agree, and
17 digits (the maximum Python emits) are kept otherwise. -/
def floatStr (q : ℚ) : List Char :=
  let a := ratAbs q
  let ip := a.floor.toNat
  let fr := a - (ip : ℚ)
  let ds := trimZeros (fracDigitsAux 17 fr)
  (if q < 0 then ['-'] else []) ++ natDigits ip ++ '.' ::
    (if ds.isEmpty then ['0'] else ds)

/-- The textual form substituted back by `calculate`:
`int(answer) if answer.is_integer() else answer`, then `str(...)`. -/
def pyStrNum (q : ℚ) : List Char :=
  if q.den = 1 then intStr q.num else floatStr q

/-- Numeric value of a digit character. -/
def digitVal (c : Char) : Nat := c.toNat - 48

/-- Value of a digit string (most significant first). -/
def digitsVal (l : List Char) : Nat :=
  l.foldl (fun acc c => acc * 10 + digitVal c) 0

/-- Unsigned part of Python `float(s)`: digits with at most one dot and at
least one digit in total (exponent notation never arises here). -/
def parseUnsignedQ (s : List Char) : Option ℚ :=
  let ip := s.takeWhile Char.isDigit
  let rest := s.dropWhile Char.isDigit
  match rest with
  | [] => if ip.isEmpty then none else some (digitsVal ip : ℚ)
  | '.' :: fp =>
    if fp.all Char.isDigit ∧ ¬(ip.isEmpty ∧ fp.isEmpty) then
      some ((digitsVal ip : ℚ) + (digitsVal fp : ℚ) / (10 : ℚ) ^ fp.length)
    else none
  | _ => none

/-- Python `float(s)` on the operand strings arising in this program;
`none` models a `ValueError`. -/
def pyFloat (s : List Char) : Option ℚ :=
  match s with
  | '-' :: rest => (parseUnsignedQ rest).map (fun q => -q)
  | '+' :: rest => parseUnsignedQ rest
  | _ => parseUnsignedQ s

/-- The kinds of `CalculatorError` raised by the arithmetic primitives
(the source attaches message strings; only the kind matters here).
`exponentOther` models a non-overflow exception inside `**` re-raised as
`CalculatorError` (e.g. `ZeroDivisionError` for `0.0 ** -1.0`). -/
inductive CalculatorError where
  | divisionByZero
  | moduloByZero
  | complexResult
  | overflow
  | exponentOther
  | unknownOperator
deriving DecidableEq, Repr

/-- One line printed by `calculate` / `evaluate_expression`: either the
working expression (`print(expr)`) or a `CalculatorError` report
(`print(f"Error: ...")`). -/
inductive Msg where
  | trace (s : List Char)
  | errMsg (e : CalculatorError)
deriving DecidableEq, Repr

/-- `clean_expression`: `"".join(expression.split())`, i.e. removal of all
whitespace. -/
def clean_expression (expression_to_clean : List Char) : List Char :=
  expression_to_clean.filter (fun c => !c.isWhitespace)

/-- Worker for `get_num_operators`: `prev` is the previous character
(`none` at index 0).  A `-` at index 0 or right after another operator is
not counted. -/
def countOpsAux : Option Char → List Char → Nat
  | _, [] => 0
  | prev, c :: rest =>
    (if c ∈ OPERATORS ∧ ¬(c = '-' ∧ prev = none) ∧
        ¬(c = '-' ∧ ∃ p, prev = some p ∧ p ∈ OPERATORS)
     then 1 else 0) + countOpsAux (some c) rest

/-- `get_num_operators`. -/
def get_num_operators (expression : List Char) : Nat :=
  countOpsAux none expression

/-- The precedence tags passed to `find_operator_pos`. -/
def mult_div_tag : String := "mult_div"

/-- Precedence tag for the exponent tier. -/
def exponent_tag : String := "exponent"

/-- Precedence tag for the addition/subtraction tier. -/
def add_sub_tag : String := "add_sub"

/-- The scan of `find_operator_pos`: first character of `ops` in the
string, skipping a `-` at index 0. -/
def findFirstOpChar (ops : List Char) : Nat → List Char → Option Char
  | _, [] => none
  | i, c :: rest =>
    if c ∈ ops ∧ ¬(c = '-' ∧ i = 0) then some c
    else findFirstOpChar ops (i + 1) rest

/-- The common part of `find_operator_pos` after the operator set is
chosen: find the first qualifying operator character, then return
`expr.find(that_char)` (from index 1 when it is a `-` and the expression
starts with `-`). -/
def findOpLoop (expr : List Char) (ops : List Char) : Int :=
  match findFirstOpChar ops 0 expr with
  | none => -1
  | some c =>
    if c = '-' ∧ expr.head? = some '-' then findCharFrom expr '-' 1
    else findCharFrom expr c 0

/-- `find_operator_pos`.  For the exponent tier the source returns
`expr.rfind("^")` when a `^` is present (rightmost scan); otherwise it
falls through to the common leftmost scan. -/
def find_operator_pos (expr : List Char) (precidence : String) : Int :=
  if precidence = mult_div_tag then
    findOpLoop expr ['*', '/', '%']
  else if precidence = exponent_tag then
    if expr.contains '^' then rfindChar expr '^'
    else findOpLoop expr ['^']
  else
    findOpLoop expr ['+', '-']

/-- `which_operator`: exponent tier first, then mult/div/mod (the source's
default argument), then add/sub. -/
def which_operator (expression_to_calc : List Char) : Int :=
  let p1 := find_operator_pos expression_to_calc exponent_tag
  let p2 := if p1 = -1 then find_operator_pos expression_to_calc mult_div_tag else p1
  if p2 = -1 then find_operator_pos expression_to_calc add_sub_tag else p2

/-- The leftward scan of `get_subexpression`
(`while left >= 0 and expression[left] not in OPERATORS: left -= 1`
followed by `left += 1`), started at `l = pos - 1 ≥ 0`; `none` models the
`IndexError` when the start index is out of range. -/
def leftScanNat (expr : List Char) : Nat → Option Nat
  | 0 =>
    if 0 ≥ expr.length then none
    else if charAt expr 0 ∈ OPERATORS then some 1
    else some 0
  | l + 1 =>
    if l + 1 ≥ expr.length then none
    else if charAt expr (l + 1) ∈ OPERATORS then some (l + 2)
    else leftScanNat expr l

/-- The rightward scan of `get_subexpression`
(`while right < len(expression) and expression[right] not in OPERATORS`).
The fuel is `expr.length + 1`, enough to reach the end of the string. -/
def rightWhile (expr : List Char) : Nat → Nat → Nat
  | 0, r => r
  | fuel + 1, r =>
    if r < expr.length ∧ charAt expr r ∉ OPERATORS then
      rightWhile expr fuel (r + 1)
    else r

/-- `get_subexpression`: the sub-expression around the operator at
`pos_operator` together with its left and right bounds.  `none` models an
`IndexError` (e.g. `expression[right]` with the operator in last
position).  The `r1 < 0` guard below concerns only `pos_operator ≤ -2`,
which `which_operator` (returning `-1` or a valid index) never produces;
there the rightward loop is skipped. -/
def get_subexpression (expression : List Char) (pos_operator : Int) :
    Option (List Char × Int × Int) :=
  let left0 : Option Int :=
    if pos_operator ≤ 0 then some pos_operator
    else (leftScanNat expression (pos_operator.toNat - 1)).map (fun n => (n : Int))
  match left0 with
  | none => none
  | some l0 =>
    let left : Int :=
      if l0 = 1 ∧ pyIndex expression 0 = some '-' then 0 else l0
    let r0 : Int := pos_operator + 1
    match pyIndex expression r0 with
    | none => none
    | some c =>
      let r1 : Int := if c = '-' then r0 + 1 else r0
      let right : Int :=
        if r1 < 0 then r1
        else (rightWhile expression (expression.length + 1) r1.toNat : Int)
      some (pySlice expression left right, left, right)

/-- `get_elements`: parse the two operands and take the operator slice.
`none` models the `ValueError` of a failed `float(...)`. -/
def get_elements (expr : List Char) (left right op : Int) :
    Option (ℚ × ℚ × List Char) :=
  match pyFloat (pySlice expr left op) with
  | none => none
  | some first =>
    match pyFloat (pySlice expr (op + 1) right) with
    | none => none
    | some second => some (first, second, pySlice expr op (op + 1))

/-- Round-half-even to an integer, the rounding used by Python's decimal
formatting. -/
def roundHalfEven (x : ℚ) : Int :=
  let f := x.floor
  let r := x - (f : ℚ)
  if r < 1/2 then f
  else if 1/2 < r then f + 1
  else if f % 2 = 0 then f else f + 1

/-- The source's `float(f"{answer:.9f}")`: round to 9 decimal places. -/
def roundTo9 (x : ℚ) : ℚ := (roundHalfEven (x * 10 ^ 9) : ℚ) / 10 ^ 9

/-- The largest finite IEEE-754 double, `1.7976931348623157e308`; `**`
raises `OverflowError` beyond it. -/
def maxFloat : ℚ := (17976931348623157 : ℚ) * 10 ^ 292

/-- Bisection worker for the integer root. -/
def natRootGo (k n : Nat) : Nat → Nat → Nat → Nat
  | 0, lo, _ => lo
  | fuel + 1, lo, hi =>
    if hi ≤ lo + 1 then lo
    else
      let mid := (lo + hi) / 2
      if mid ^ k ≤ n then natRootGo k n fuel mid hi
      else natRootGo k n fuel lo mid

/-- `⌊n^(1/k)⌋` by bisection. -/
def natRoot (k n : Nat) : Nat := natRootGo k n (n + 2) 0 (n + 1)

/-- Computable stand-in for real exponentiation `b ** e` with `b > 0` and
a non-integer exponent `e = num/den` (a value the rational model cannot
represent exactly): the `den`-th root of `b ^ num`, computed to 12 decimal
digits.  No theorem below depends on its value; it only keeps the model
total and computable on the fractional-exponent branch. -/
def qRpowApprox (b e : ℚ) : ℚ :=
  let t : ℚ := b ^ e.num
  let scale : ℚ := 10 ^ 12
  ((natRoot e.den (t * scale ^ (e.den : Nat)).floor.toNat : ℚ)) / scale

/-- Model of the Python expression `base ** exponent` on doubles: exact
rational power for integer exponents, `qRpowApprox` otherwise;
`OverflowError` beyond `maxFloat`; `ZeroDivisionError` for `0 ** neg`. -/
def qPow (base exponent : ℚ) : Except CalculatorError ℚ :=
  if exponent.den = 1 then
    if base = 0 ∧ exponent.num < 0 then .error .exponentOther
    else
      let a := base ^ exponent.num
      if maxFloat < ratAbs a then .error .overflow else .ok a
  else
    if base = 0 then
      if exponent.num < 0 then .error .exponentOther else .ok 0
    else
      let a := qRpowApprox base exponent
      if maxFloat < ratAbs a then .error .overflow else .ok a

/-- `get_exponent_answer`.  The `0^0` warning print and the defensively
unreachable `isinstance(answer, complex)` check are not modelled. -/
def get_exponent_answer (base exponent : ℚ) : Except CalculatorError ℚ :=
  if base = 0 ∧ exponent = 0 then .ok 1
  else if base < 0 ∧ ¬exponent.den = 1 then .error .complexResult
  else
    match qPow base exponent with
    | .error e => .error e
    | .ok answer => .ok (roundTo9 answer)

/-- `do_the_math` on the single-character operator slice.  Python float
`%` is `a - b * floor(a / b)`. -/
def do_the_math (first_num second_num : ℚ) (operator : List Char) :
    Except CalculatorError ℚ :=
  match operator with
  | ['+'] => .ok (first_num + second_num)
  | ['-'] => .ok (first_num - second_num)
  | ['*'] => .ok (first_num * second_num)
  | ['/'] =>
    if second_num = 0 then .error .divisionByZero
    else .ok (first_num / second_num)
  | ['%'] =>
    if second_num = 0 then .error .moduloByZero
    else .ok (first_num - second_num * ((first_num / second_num).floor : ℚ))
  | ['^'] => get_exponent_answer first_num second_num
  | _ => .error .unknownOperator

/-- Worker for `strip_odd_double_operators`: the Python `for` iterates
over the ORIGINAL string (`orig`, with `i` the current index) while `cur`
is the string being mutated; `expr[i-1]` reads the CURRENT string (and
wraps for `i = 0`).  `none` models an `IndexError`. -/
def stripOddGo (orig : List Char) : List Char → Nat → List Char → Option (List Char)
  | [], _, cur => some cur
  | each :: rest, i, cur =>
    if each = '+' then
      match pyIndex cur ((i : Int) - 1) with
      | none => none
      | some prev =>
        if prev ∈ OPERATORS then
          stripOddGo orig rest (i + 1)
            (pySlice cur 0 (i : Int) ++ pySlice cur ((i : Int) + 1) (cur.length : Int))
        else stripOddGo orig rest (i + 1) cur
    else stripOddGo orig rest (i + 1) cur

/-- `strip_odd_double_operators`. -/
def strip_odd_double_operators (expr : List Char) : Option (List Char) :=
  stripOddGo expr expr 0 expr

/-- Result of one iteration of `calculate`'s reduction loop. -/
inductive StepRes where
  /-- An uncaught Python exception (`IndexError` / `ValueError`). -/
  | crash
  /-- `do_the_math` raised a `CalculatorError`; `calculate` returns
  `"ERROR"`. -/
  | fail (e : CalculatorError)
  /-- Successful step: the solved sub-expression, its value, and the
  working expression after substitution. -/
  | ok (sub : List Char) (answer : ℚ) (newExpr : List Char)
deriving DecidableEq

/-- One iteration of the loop in `calculate`: select the operator by
precedence, extract the sub-expression and its operands, compute, convert
the answer to text, and substitute it with `expr.replace(sub, str(answer))`
(which replaces EVERY occurrence). -/
def calcStep (expr : List Char) : StepRes :=
  let pos_operator := which_operator expr
  match get_subexpression expr pos_operator with
  | none => .crash
  | some (sub_exp, left_num, right_num) =>
    match get_elements expr left_num right_num pos_operator with
    | none => .crash
    | some (first_num, second_num, operator) =>
      match do_the_math first_num second_num operator with
      | .error e => .fail e
      | .ok answer => .ok sub_exp answer (replaceAll sub_exp (pyStrNum answer) expr)

/-- The string `"ERROR"` returned by `calculate` on a `CalculatorError`. -/
def ERRORtext : List Char := "ERROR".toList

/-- The reduction loop of `calculate`, run exactly `get_num_operators`
times (the `for i in range(num_operators)` loop).  Returns the final
working string (`none` = crash) and the printed log; the working string is
printed after each step when `is_paren_exp` is false. -/
def calcLoop : Nat → List Char → Bool → Option (List Char) × List Msg
  | 0, expr, _ => (some expr, [])
  | n + 1, expr, is_paren_exp =>
    match calcStep expr with
    | .crash => (none, [])
    | .fail e => (some ERRORtext, [Msg.errMsg e])
    | .ok _ _ expr' =>
      let r := calcLoop n expr' is_paren_exp
      (r.1, (if is_paren_exp = false then [Msg.trace expr'] else []) ++ r.2)

/-- The double-negative pre-pass at the top of `calculate`: a `"--"` at
position 0 is deleted everywhere, a `"--"` elsewhere becomes `"+"`
followed by `strip_odd_double_operators`. -/
def calcPre (expr : List Char) : Option (List Char) :=
  if findSubPos ['-', '-'] expr ≠ -1 then
    if findSubPos ['-', '-'] expr = 0 then some (replaceAll ['-', '-'] [] expr)
    else strip_odd_double_operators (replaceAll ['-', '-'] ['+'] expr)
  else some expr

/-- `calculate`: the double-negative pre-pass, then the reduction loop. -/
def calculate (expr : List Char) (is_paren_exp : Bool) :
    Option (List Char) × List Msg :=
  match calcPre expr with
  | none => (none, [])
  | some expr1 => calcLoop (get_num_operators expr1) expr1 is_paren_exp

/-- Number of opening-bracket characters; used as the recursion fuel of
`evaluate_expression` (each bracket step removes exactly one opener, see
the lemmas below). -/
def countOpeners (expr : List Char) : Nat :=
  (expr.filter (fun c => c ∈ openersL)).length

/-- `any(bracket in expr for bracket in "([\x7b")`. -/
def hasOpener (expr : List Char) : Bool :=
  expr.contains '(' || expr.contains '[' || expr.contains '\x7b'

/-- Index of the first closing bracket, as an option. -/
def firstCloserAux : List Char → Option Nat
  | [] => none
  | c :: rest =>
    if c ∈ closersL then some 0 else (firstCloserAux rest).map (· + 1)

/-- The `target_close` scan of `evaluate_expression`: index of the first
closing bracket, `-1` if none. -/
def findFirstCloser (expr : List Char) : Int :=
  match firstCloserAux expr with
  | none => -1
  | some i => (i : Int)

/-- Backward scan from `l` down to `0` for an opening bracket. -/
def openBackAux (expr : List Char) : Nat → Option Nat
  | 0 => if charAt expr 0 ∈ openersL then some 0 else none
  | l + 1 =>
    if charAt expr (l + 1) ∈ openersL then some (l + 1)
    else openBackAux expr l

/-- The `target_open` scan of `evaluate_expression`
(`for i in range(target_close, -1, -1)`): `-1` when `tc < 0` (empty
range) or when no opener lies at an index `≤ tc`. -/
def findOpenBack (expr : List Char) (tc : Int) : Int :=
  if tc < 0 then -1
  else
    match openBackAux expr tc.toNat with
    | none => -1
    | some i => (i : Int)

/-- The recursion of `evaluate_expression`, with fuel.  Fuel `0` models
non-termination (unreachable from balanced input, see
`evalGo_fuel_irrel`).  Each call prints the current expression. -/
def evalGo : Nat → List Char → Option (List Char) × List Msg
  | 0, _ => (none, [])
  | fuel + 1, expr =>
    if hasOpener expr = false then
      let r := calculate expr false
      (r.1, Msg.trace expr :: r.2)
    else
      let target_close := findFirstCloser expr
      let target_open := findOpenBack expr target_close
      let inner_expr := pySlice expr (target_open + 1) target_close
      let r := calculate inner_expr true
      match r.1 with
      | none => (none, Msg.trace expr :: r.2)
      | some inner_result =>
        let new_expr :=
          pySlice expr 0 target_open ++ inner_result ++
            pySlice expr (target_close + 1) (expr.length : Int)
        let r2 := evalGo fuel new_expr
        (r2.1, Msg.trace expr :: (r.2 ++ r2.2))

/-- `evaluate_expression`. -/
def evaluate_expression (expr : List Char) : Option (List Char) × List Msg :=
  evalGo (countOpeners expr + 1) expr

/-- `has_double_op`: two adjacent operators where the second is not `-`. -/
def has_double_op : List Char → Bool
  | a :: b :: rest =>
    (a ∈ OPERATORS ∧ b ∈ OPERATORS ∧ b ≠ '-' : Bool) || has_double_op (b :: rest)
  | _ => false

/-- `has_leading_or_trailing_op`; `none` models the `IndexError` on an
empty string (`expr[len - 1]`). -/
def has_leading_or_trailing_op (expr : List Char) : Option Bool :=
  match pyIndex expr ((expr.length : Int) - 1) with
  | none => none
  | some last =>
    if last ∈ OPERATORS then some true
    else
      match pyIndex expr 0 with
      | none => none
      | some first =>
        if first ∈ OPERATORS ∧ first ≠ '-' then some true else some false

/-- Worker for `is_valid_numbers`: accumulate the current digits-and-dots
run, failing when a run has two dots. -/
def validNumbersAux : List Char → List Char → Bool
  | cur, [] => !(cur.count '.' > 1)
  | cur, c :: rest =>
    if c.isDigit ∨ c = '.' then validNumbersAux (cur ++ [c]) rest
    else if cur.count '.' > 1 then false
    else validNumbersAux [] rest

/-- `is_valid_numbers`: at most one decimal point per number. -/
def is_valid_numbers (expr : List Char) : Bool :=
  validNumbersAux [] expr

/-- `fix_double_neg_at_beg_of_expr` (its `open_paren_pos` argument is
unused by the source body and omitted): rewrite a leading `-(-` to `(`.
`none` models the `IndexError` on short strings such as `"-("`. -/
def fix_double_neg_at_beg_of_expr (expr : List Char) :
    Option (List Char × Bool) :=
  match pyIndex expr 0 with
  | none => none
  | some c0 =>
    if c0 = '-' then
      match pyIndex expr 1 with
      | none => none
      | some c1 =>
        if c1 = '(' then
          match pyIndex expr 2 with
          | none => none
          | some c2 =>
            if c2 = '-' then some ('(' :: expr.drop 3, true)
            else some (expr, false)
        else some (expr, false)
    else some (expr, false)

/-- The scanning loop of `return_bal_paren_or_ambiguous`.  `expr` is the
string being scanned (it never changes during one scan: the source's
rewrite is followed by `break`), `prev` the previous character, `rest` the
remaining characters, `stack` the bracket stack.  The fuel is decremented
on every step; exhaustion (`none`) is unreachable for the fuel chosen by
the wrapper.  On a rewrite the scan restarts on the rewritten string
(check flag `true`), and afterwards the source's final
`if len(stack) == 0 and check_paren` still runs. -/
def balScan : Nat → Bool → List Char → Option Char → List Char → List Char →
    Option (Bool × List Char)
  | 0, _, _, _, _, _ => none
  | _ + 1, check_paren, expr, _, [], stack =>
    some ((stack.isEmpty && check_paren), expr)
  | fuel + 1, check_paren, expr, prev, c :: rest, stack =>
    if c ∈ openersL then
      if (prev.elim false Char.isDigit) && !check_paren then
        some (true, expr)
      else
        match fix_double_neg_at_beg_of_expr expr with
        | none => none
        | some (expr2, changed) =>
          if changed then
            match balScan fuel true expr2 none expr2 [] with
            | none => none
            | some (r, e3) =>
              some ((if stack.isEmpty && check_paren then true else r), e3)
          else balScan fuel check_paren expr (some c) rest (c :: stack)
    else if c ∈ closersL then
      if (rest.head?.elim false Char.isDigit) && !check_paren then
        some (true, expr)
      else
        match stack with
        | [] => some (false, expr)
        | top :: stail =>
          if top ≠ pairOf c then some (false, expr)
          else balScan fuel check_paren expr (some c) rest stail
    else balScan fuel check_paren expr (some c) rest stack

/-- `return_bal_paren_or_ambiguous`.  The fuel `(len + 2) * (len + 2)`
bounds the total number of scan steps over all restarts (each restart
shrinks the string by two characters). -/
def return_bal_paren_or_ambiguous (expr : List Char) (check_paren : Bool) :
    Option (Bool × List Char) :=
  balScan ((expr.length + 2) * (expr.length + 2)) check_paren expr none expr []

/-- `is_balanced_paren`. -/
def is_balanced_paren (expr : List Char) : Option (Bool × List Char) :=
  return_bal_paren_or_ambiguous expr true

/-- `is_ambiguous` (drops the possibly rewritten expression). -/
def is_ambiguous (expr : List Char) : Option Bool :=
  (return_bal_paren_or_ambiguous expr false).map (·.1)

/-- The valid character set of `is_valid_input`. -/
def validCharsL : List Char :=
  ['1', '2', '3', '4', '5', '6', '7', '8', '9', '0', '.', '(', ')',
   '+', '-', '*', '/', '[', ']', '\x7b', '\x7d', '^', '%']

/-- Does the expression contain any bracket character
(`any(char in input for char in "[]\x7b\x7d()")`)? -/
def hasAnyBracket (expr : List Char) : Bool :=
  expr.any (fun c => c ∈ bracketsL)

/-- `is_valid_input`: the validation sequence, short-circuiting via the
`val` flag exactly as the source does (messages are printed but only the
flag and the possibly rewritten expression are returned).  `none` models a
crash inside a sub-check. -/
def is_valid_input (input_to_validate : List Char) :
    Option (Bool × List Char) :=
  let val := true
  let val := if input_to_validate.isEmpty then false else val
  let val :=
    if ¬(input_to_validate.all (fun c => c ∈ validCharsL)) then false else val
  match (if val then has_leading_or_trailing_op input_to_validate else some false) with
  | none => none
  | some lead =>
    let val := if val ∧ lead then false else val
    let balStep : Option (Bool × List Char) :=
      if val ∧ hasAnyBracket input_to_validate then
        is_balanced_paren input_to_validate
      else some (val, input_to_validate)
    match balStep with
    | none => none
    | some (val, input2) =>
      let ambStep : Option Bool :=
        if val ∧ hasAnyBracket input2 then is_ambiguous input2 else some false
      match ambStep with
      | none => none
      | some amb =>
        let val := if val ∧ amb then false else val
        let val := if val ∧ has_double_op input2 then false else val
        let val :=
          if val ∧ (occursIn ['/', '0'] input2 || occursIn ['%', '0'] input2) then
            false
          else val
        let val := if val ∧ ¬is_valid_numbers input2 then false else val
        some (val, input2)

/-- Pattern `"*-(-"`. -/
def pStarNeg : List Char := ['*', '-', '(', '-']

/-- Pattern "slash minus open-paren minus". -/
def pSlashNeg : List Char := ['/', '-', '(', '-']

/-- Pattern `"+-(-"`. -/
def pPlusNeg : List Char := ['+', '-', '(', '-']

/-- Pattern `"--(-"`. -/
def pNegNeg : List Char := ['-', '-', '(', '-']

/-- Guard of the first `while` loop of `normalize_unary`: any of the four
sign-collision patterns `pStarNeg`, `pSlashNeg`, `pPlusNeg`, `pNegNeg`
occurs (note the body's fifth pattern `"^--("` is NOT part of the guard). -/
def guard1 (expr : List Char) : Bool :=
  occursIn pStarNeg expr || occursIn pSlashNeg expr ||
    occursIn pPlusNeg expr || occursIn pNegNeg expr

/-- Body of the first loop: the five chained `replace` calls. -/
def body1 (expr : List Char) : List Char :=
  replaceAll ['^', '-', '-', '('] ['^', '+', '(']
    (replaceAll pNegNeg ['-', '(']
      (replaceAll pPlusNeg ['+', '(']
        (replaceAll pSlashNeg ['/', '(']
          (replaceAll pStarNeg ['*', '('] expr))))

/-- Guard of the second loop (`["--", "+-", "-+", "++"]`). -/
def guard2 (expr : List Char) : Bool :=
  occursIn ['-', '-'] expr || occursIn ['+', '-'] expr ||
    occursIn ['-', '+'] expr || occursIn ['+', '+'] expr

/-- Body of the second loop (including the `"^^" → "^"` replace that is
absent from the guard). -/
def body2 (expr : List Char) : List Char :=
  replaceAll ['^', '^'] ['^']
    (replaceAll ['+', '+'] ['+']
      (replaceAll ['-', '+'] ['-']
        (replaceAll ['+', '-'] ['-']
          (replaceAll ['-', '-'] ['+'] expr))))

/-- Guard of the third loop (`["---", "----"]`). -/
def guard3 (expr : List Char) : Bool :=
  occursIn ['-', '-', '-'] expr || occursIn ['-', '-', '-', '-'] expr

/-- Body of the third loop. -/
def body3 (expr : List Char) : List Char :=
  replaceAll ['-', '-', '-', '-'] ['+'] (replaceAll ['-', '-', '-'] ['-'] expr)

/-- A fueled `while guard: expr = body expr` loop. -/
def rewriteLoop (guard : List Char → Bool) (body : List Char → List Char) :
    Nat → List Char → List Char
  | 0, expr => expr
  | fuel + 1, expr => if guard expr then rewriteLoop guard body fuel (body expr) else expr

/-- First rewrite loop of `normalize_unary`; fuel `len + 1` suffices since
every iteration strictly shrinks the string (`loop1_guard_false`). -/
def normLoop1 (expr : List Char) : List Char :=
  rewriteLoop guard1 body1 (expr.length + 1) expr

/-- Second rewrite loop of `normalize_unary`. -/
def normLoop2 (expr : List Char) : List Char :=
  rewriteLoop guard2 body2 (expr.length + 1) expr

/-- Third rewrite loop of `normalize_unary`. -/
def normLoop3 (expr : List Char) : List Char :=
  rewriteLoop guard3 body3 (expr.length + 1) expr

/-- `if expr.startswith("+"): expr = expr[1:]`. -/
def stripLeadPlus (expr : List Char) : List Char :=
  match expr with
  | '+' :: t => t
  | _ => expr

/-- `normalize_unary`. -/
def normalize_unary (expr : List Char) : List Char :=
  stripLeadPlus (normLoop3 (normLoop2 (normLoop1 expr)))

/-- The normalizer of the pipeline in `get_num_input`:
`clean_expression` then `normalize_unary`. -/
def normalize (s : List Char) : List Char :=
  normalize_unary (clean_expression s)

/-- Specification-side bracket-stack runner: `none` on a mismatched or
unmatched closer, otherwise the final stack. -/
def runStack (stack : List Char) : List Char → Option (List Char)
  | [] => some stack
  | c :: rest =>
    if c ∈ openersL then runStack (c :: stack) rest
    else if c ∈ closersL then
      match stack with
      | [] => none
      | top :: ts => if top = pairOf c then runStack ts rest else none
    else runStack stack rest

/-- Specification-side balance predicate: the bracket characters nest and
match by kind.  This is the claim's notion of a "balanced expression". -/
def BalancedB (expr : List Char) : Bool :=
  runStack [] expr = some []

/-- Bracket-free strings (no opener and no closer). -/
def brFree (s : List Char) : Prop :=
  ∀ c ∈ s, c ∉ openersL ∧ c ∉ closersL

instance (s : List Char) : Decidable (brFree s) := by
  unfold brFree; infer_instance

/-- The property claimed of one step of the bracket resolver on `expr`:
`target_close` is the first closing bracket in left-to-right order,
`target_open` the nearest opening bracket scanning backward from it
(ignoring bracket kind), and `evaluate_expression` evaluates the enclosed
region with `calculate(..., True)`, substitutes its textual result over
the whole bracketed span, and recurses on the updated string. -/
def bracketStepProp (expr : List Char) : Prop :=
  0 ≤ findFirstCloser expr ∧
  findFirstCloser expr < (expr.length : Int) ∧
  charAt expr (findFirstCloser expr).toNat ∈ closersL ∧
  (∀ j, j < (findFirstCloser expr).toNat → charAt expr j ∉ closersL) ∧
  0 ≤ findOpenBack expr (findFirstCloser expr) ∧
  findOpenBack expr (findFirstCloser expr) < findFirstCloser expr ∧
  charAt expr (findOpenBack expr (findFirstCloser expr)).toNat ∈ openersL ∧
  (∀ j, (findOpenBack expr (findFirstCloser expr)).toNat < j →
    j ≤ (findFirstCloser expr).toNat → charAt expr j ∉ openersL) ∧
  evaluate_expression expr =
    (match (calculate (pySlice expr
        (findOpenBack expr (findFirstCloser expr) + 1)
        (findFirstCloser expr)) true).1 with
     | none => ((none : Option (List Char)), Msg.trace expr ::
         (calculate (pySlice expr
           (findOpenBack expr (findFirstCloser expr) + 1)
           (findFirstCloser expr)) true).2)
     | some inner_result =>
       ((evaluate_expression
           (pySlice expr 0 (findOpenBack expr (findFirstCloser expr)) ++
             inner_result ++
             pySlice expr (findFirstCloser expr + 1) (expr.length : Int))).1,
         Msg.trace expr ::
           ((calculate (pySlice expr
               (findOpenBack expr (findFirstCloser expr) + 1)
               (findFirstCloser expr)) true).2 ++
             (evaluate_expression
               (pySlice expr 0 (findOpenBack expr (findFirstCloser expr)) ++
                 inner_result ++
                 pySlice expr (findFirstCloser expr + 1) (expr.length : Int))).2)))

/-! ### Generic lemmas about `replaceAll` and `occursIn` -/

theorem replaceAllAux_nil (pat rep : List Char) (f : Nat) :
    replaceAllAux pat rep f [] = [] := by
  cases f <;> rfl

theorem replaceAllAux_fuel_irrel (pat rep : List Char) :
    ∀ f s, s.length ≤ f →
      replaceAllAux pat rep f s = replaceAllAux pat rep s.length s := by
  intro f
  induction f using Nat.strong_induction_on with
  | _ f ih =>
    intro s hs
    cases s with
    | nil => rw [replaceAllAux_nil, replaceAllAux_nil]
    | cons c rest =>
      cases f with
      | zero => simp at hs
      | succ f =>
        simp only [replaceAllAux, List.length_cons]
        have hr : rest.length ≤ f := by simpa using hs
        by_cases hp : pat.isPrefixOf (c :: rest)
        · rw [if_pos hp, if_pos hp]
          have h1 : (rest.drop (pat.length - 1)).length ≤ f := by
            have := List.length_drop (pat.length - 1) rest
            omega
          have h2 : (rest.drop (pat.length - 1)).length ≤ rest.length := by
            have := List.length_drop (pat.length - 1) rest
            omega
          rw [ih f (by omega) _ h1, ih rest.length (by omega) _ h2]
        · rw [if_neg hp, if_neg hp,
            ih f (by omega) _ hr, ih rest.length (by omega) _ (le_refl _)]

theorem replaceAll_nil (pat rep : List Char) : replaceAll pat rep [] = [] := rfl

theorem replaceAll_cons (pat rep : List Char) (c : Char) (rest : List Char) :
    replaceAll pat rep (c :: rest) =
      if pat.isPrefixOf (c :: rest) then
        rep ++ replaceAll pat rep (rest.drop (pat.length - 1))
      else c :: replaceAll pat rep rest := by
  show replaceAllAux pat rep (rest.length + 1) (c :: rest) = _
  simp only [replaceAllAux]
  by_cases hp : pat.isPrefixOf (c :: rest)
  · rw [if_pos hp, if_pos hp,
      replaceAllAux_fuel_irrel pat rep rest.length _
        (by have := List.length_drop (pat.length - 1) rest; omega)]
    rfl
  · rw [if_neg hp, if_neg hp]
    rfl

theorem mem_replaceAll (pat rep : List Char) :
    ∀ s a, a ∈ replaceAll pat rep s → a ∈ s ∨ a ∈ rep := by
  have H : ∀ n s, s.length = n → ∀ a, a ∈ replaceAll pat rep s → a ∈ s ∨ a ∈ rep := by
    intro n
    induction n using Nat.strong_induction_on with
    | _ n ih =>
      intro s hlen a ha
      cases s with
      | nil => simp [replaceAll_nil] at ha
      | cons c rest =>
        rw [replaceAll_cons] at ha
        by_cases hp : pat.isPrefixOf (c :: rest)
        · rw [if_pos hp] at ha
          rcases List.mem_append.mp ha with ha | ha
          · exact Or.inr ha
          · rcases ih (rest.drop (pat.length - 1)).length
                (by have := List.length_drop (pat.length - 1) rest; simp at hlen; omega)
                _ rfl a ha with h | h
            · exact Or.inl (List.mem_cons_of_mem c (List.drop_subset _ _ h))
            · exact Or.inr h
        · rw [if_neg hp] at ha
          rcases List.mem_cons.mp ha with rfl | ha
          · exact Or.inl (List.mem_cons_self _ _)
          · rcases ih rest.length (by simp at hlen; omega) _ rfl a ha with h | h
            · exact Or.inl (List.mem_cons_of_mem c h)
            · exact Or.inr h
  intro s
  exact H s.length s rfl

theorem replaceAll_of_not_occurs (pat rep : List Char) :
    ∀ s, occursIn pat s = false → replaceAll pat rep s = s := by
  intro s
  induction s with
  | nil => intro; exact replaceAll_nil pat rep
  | cons c rest ih =>
    intro h
    simp only [occursIn, Bool.or_eq_false_iff] at h
    rw [replaceAll_cons, if_neg (by simp [h.1]), ih h.2]

theorem length_replaceAll_le (pat rep : List Char) (hle : rep.length ≤ pat.length) :
    ∀ s, (replaceAll pat rep s).length ≤ s.length := by
  have H : ∀ n s, s.length = n → (replaceAll pat rep s).length ≤ s.length := by
    intro n
    induction n using Nat.strong_induction_on with
    | _ n ih =>
      intro s hlen
      cases s with
      | nil => simp [replaceAll_nil]
      | cons c rest =>
        rw [replaceAll_cons]
        by_cases hp : pat.isPrefixOf (c :: rest)
        · rw [if_pos hp]
          simp only [List.length_append, List.length_cons]
          have hrec := ih (rest.drop (pat.length - 1)).length
            (by have := List.length_drop (pat.length - 1) rest; simp at hlen; omega) _ rfl
          have hplen : pat.length ≤ rest.length + 1 := by
            simpa using (List.isPrefixOf_iff_prefix.mp hp).length_le
          have := List.length_drop (pat.length - 1) rest
          omega
        · rw [if_neg hp]
          simp only [List.length_cons]
          have hrec := ih rest.length (by simp at hlen; omega) _ rfl
          omega
  intro s
  exact H s.length s rfl

theorem length_replaceAll_lt (pat rep : List Char) (hpat : pat ≠ [])
    (hlt : rep.length < pat.length) :
    ∀ s, occursIn pat s = true → (replaceAll pat rep s).length < s.length := by
  intro s
  induction s with
  | nil =>
    intro h
    simp only [occursIn, List.isEmpty_iff] at h
    exact absurd h hpat
  | cons c rest ih =>
    intro h
    rw [replaceAll_cons]
    by_cases hp : pat.isPrefixOf (c :: rest)
    · rw [if_pos hp]
      simp only [List.length_append, List.length_cons]
      have hplen : pat.length ≤ rest.length + 1 := by
        simpa using (List.isPrefixOf_iff_prefix.mp hp).length_le
      have h1 := length_replaceAll_le pat rep (by omega) (rest.drop (pat.length - 1))
      have := List.length_drop (pat.length - 1) rest
      omega
    · simp only [occursIn, hp, Bool.false_or] at h
      rw [if_neg hp]
      simp only [List.length_cons]
      have := ih h
      omega

theorem occursIn_of_occursIn_append (p q : List Char) :
    ∀ s, occursIn (p ++ q) s = true → occursIn p s = true := by
  intro s
  induction s with
  | nil =>
    intro h
    simp only [occursIn, List.isEmpty_iff, List.append_eq_nil] at h ⊢
    exact h.1
  | cons c rest ih =>
    intro h
    simp only [occursIn, Bool.or_eq_true] at h ⊢
    rcases h with h | h
    · left
      have hpre : (p ++ q) <+: (c :: rest) := List.isPrefixOf_iff_prefix.mp h
      exact List.isPrefixOf_iff_prefix.mpr ((List.prefix_append p q).trans hpre)
    · exact Or.inr (ih h)

theorem occursIn_cons_of_occursIn (pat : List Char) (c : Char) (rest : List Char)
    (h : occursIn pat rest = true) : occursIn pat (c :: rest) = true := by
  simp [occursIn, h]

/-! ### The rewrite loops of `normalize_unary` -/

theorem rewriteLoop_of_guard_false (guard : List Char → Bool)
    (body : List Char → List Char) (f : Nat) (e : List Char)
    (h : guard e = false) : rewriteLoop guard body f e = e := by
  cases f with
  | zero => rfl
  | succ f => simp [rewriteLoop, h]

theorem rewriteLoop_guard_false (guard : List Char → Bool)
    (body : List Char → List Char)
    (shrink : ∀ e, guard e = true → (body e).length < e.length) :
    ∀ f e, e.length < f → guard (rewriteLoop guard body f e) = false := by
  intro f
  induction f with
  | zero => intro e he; omega
  | succ f ih =>
    intro e he
    by_cases hg : guard e = true
    · simp only [rewriteLoop, hg, if_true]
      exact ih (body e) (by have := shrink e hg; omega)
    · simp only [rewriteLoop, hg, if_false]
      exact Bool.not_eq_true _ ▸ hg

theorem body1_shrink (e : List Char) (h : guard1 e = true) :
    (body1 e).length < e.length := by
  simp only [guard1, Bool.or_eq_true] at h
  unfold body1
  have l5 := length_replaceAll_le ['^', '-', '-', '('] ['^', '+', '('] (by simp)
  by_cases h1 : occursIn pStarNeg e = true
  · have := length_replaceAll_lt pStarNeg ['*', '('] (by simp [pStarNeg]) (by simp [pStarNeg]) e h1
    have l2 := length_replaceAll_le pSlashNeg ['/', '('] (by simp [pSlashNeg])
    have l3 := length_replaceAll_le pPlusNeg ['+', '('] (by simp [pPlusNeg])
    have l4 := length_replaceAll_le pNegNeg ['-', '('] (by simp [pNegNeg])
    calc (replaceAll ['^', '-', '-', '('] ['^', '+', '(']
            (replaceAll pNegNeg ['-', '(']
              (replaceAll pPlusNeg ['+', '(']
                (replaceAll pSlashNeg ['/', '(']
                  (replaceAll pStarNeg ['*', '('] e))))).length
        ≤ (replaceAll pStarNeg ['*', '('] e).length := by
          exact le_trans (l5 _) (le_trans (l4 _) (le_trans (l3 _) (l2 _)))
      _ < e.length := this
  · rw [replaceAll_of_not_occurs pStarNeg _ e (by simpa using h1)]
    by_cases h2 : occursIn pSlashNeg e = true
    · have := length_replaceAll_lt pSlashNeg ['/', '('] (by simp [pSlashNeg]) (by simp [pSlashNeg]) e h2
      have l3 := length_replaceAll_le pPlusNeg ['+', '('] (by simp [pPlusNeg])
      have l4 := length_replaceAll_le pNegNeg ['-', '('] (by simp [pNegNeg])
      calc (replaceAll ['^', '-', '-', '('] ['^', '+', '(']
              (replaceAll pNegNeg ['-', '(']
                (replaceAll pPlusNeg ['+', '(']
                  (replaceAll pSlashNeg ['/', '('] e)))).length
          ≤ (replaceAll pSlashNeg ['/', '('] e).length := by
            exact le_trans (l5 _) (le_trans (l4 _) (l3 _))
        _ < e.length := this
    · rw [replaceAll_of_not_occurs pSlashNeg _ e (by simpa using h2)]
      by_cases h3 : occursIn pPlusNeg e = true
      · have := length_replaceAll_lt pPlusNeg ['+', '('] (by simp [pPlusNeg]) (by simp [pPlusNeg]) e h3
        have l4 := length_replaceAll_le pNegNeg ['-', '('] (by simp [pNegNeg])
        calc (replaceAll ['^', '-', '-', '('] ['^', '+', '(']
                (replaceAll pNegNeg ['-', '(']
                  (replaceAll pPlusNeg ['+', '('] e))).length
            ≤ (replaceAll pPlusNeg ['+', '('] e).length := le_trans (l5 _) (l4 _)
          _ < e.length := this
      · rw [replaceAll_of_not_occurs pPlusNeg _ e (by simpa using h3)]
        have h4 : occursIn pNegNeg e = true := by tauto
        have := length_replaceAll_lt pNegNeg ['-', '('] (by simp [pNegNeg]) (by simp [pNegNeg]) e h4
        calc (replaceAll ['^', '-', '-', '('] ['^', '+', '(']
                (replaceAll pNegNeg ['-', '('] e)).length
            ≤ (replaceAll pNegNeg ['-', '('] e).length := l5 _
          _ < e.length := this

theorem body2_shrink (e : List Char) (h : guard2 e = true) :
    (body2 e).length < e.length := by
  simp only [guard2, Bool.or_eq_true] at h
  unfold body2
  have l5 := length_replaceAll_le ['^', '^'] ['^'] (by simp)
  by_cases h1 : occursIn ['-', '-'] e = true
  · have := length_replaceAll_lt ['-', '-'] ['+'] (by simp) (by simp) e h1
    have l2 := length_replaceAll_le ['+', '-'] ['-'] (by simp)
    have l3 := length_replaceAll_le ['-', '+'] ['-'] (by simp)
    have l4 := length_replaceAll_le ['+', '+'] ['+'] (by simp)
    calc (replaceAll ['^', '^'] ['^']
            (replaceAll ['+', '+'] ['+']
              (replaceAll ['-', '+'] ['-']
                (replaceAll ['+', '-'] ['-']
                  (replaceAll ['-', '-'] ['+'] e))))).length
        ≤ (replaceAll ['-', '-'] ['+'] e).length :=
          le_trans (l5 _) (le_trans (l4 _) (le_trans (l3 _) (l2 _)))
      _ < e.length := this
  · rw [replaceAll_of_not_occurs ['-', '-'] _ e (by simpa using h1)]
    by_cases h2 : occursIn ['+', '-'] e = true
    · have := length_replaceAll_lt ['+', '-'] ['-'] (by simp) (by simp) e h2
      have l3 := length_replaceAll_le ['-', '+'] ['-'] (by simp)
      have l4 := length_replaceAll_le ['+', '+'] ['+'] (by simp)
      calc (replaceAll ['^', '^'] ['^']
              (replaceAll ['+', '+'] ['+']
                (replaceAll ['-', '+'] ['-']
                  (replaceAll ['+', '-'] ['-'] e)))).length
          ≤ (replaceAll ['+', '-'] ['-'] e).length :=
            le_trans (l5 _) (le_trans (l4 _) (l3 _))
        _ < e.length := this
    · rw [replaceAll_of_not_occurs ['+', '-'] _ e (by simpa using h2)]
      by_cases h3 : occursIn ['-', '+'] e = true
      · have := length_replaceAll_lt ['-', '+'] ['-'] (by simp) (by simp) e h3
        have l4 := length_replaceAll_le ['+', '+'] ['+'] (by simp)
        calc (replaceAll ['^', '^'] ['^']
                (replaceAll ['+', '+'] ['+']
                  (replaceAll ['-', '+'] ['-'] e))).length
            ≤ (replaceAll ['-', '+'] ['-'] e).length := le_trans (l5 _) (l4 _)
          _ < e.length := this
      · rw [replaceAll_of_not_occurs ['-', '+'] _ e (by simpa using h3)]
        have h4 : occursIn ['+', '+'] e = true := by tauto
        have := length_replaceAll_lt ['+', '+'] ['+'] (by simp) (by simp) e h4
        calc (replaceAll ['^', '^'] ['^']
                (replaceAll ['+', '+'] ['+'] e)).length
            ≤ (replaceAll ['+', '+'] ['+'] e).length := l5 _
          _ < e.length := this

theorem body3_shrink (e : List Char) (h : guard3 e = true) :
    (body3 e).length < e.length := by
  simp only [guard3, Bool.or_eq_true] at h
  unfold body3
  by_cases h1 : occursIn ['-', '-', '-'] e = true
  · have := length_replaceAll_lt ['-', '-', '-'] ['-'] (by simp) (by simp) e h1
    have l2 := length_replaceAll_le ['-', '-', '-', '-'] ['+'] (by simp)
    calc (replaceAll ['-', '-', '-', '-'] ['+']
            (replaceAll ['-', '-', '-'] ['-'] e)).length
        ≤ (replaceAll ['-', '-', '-'] ['-'] e).length := l2 _
      _ < e.length := this
  · rw [replaceAll_of_not_occurs ['-', '-', '-'] _ e (by simpa using h1)]
    have h2 : occursIn ['-', '-', '-', '-'] e = true := by tauto
    exact length_replaceAll_lt ['-', '-', '-', '-'] ['+'] (by simp) (by simp) e h2

theorem normLoop1_guard (e : List Char) : guard1 (normLoop1 e) = false :=
  rewriteLoop_guard_false guard1 body1 body1_shrink (e.length + 1) e (by omega)

theorem normLoop2_guard (e : List Char) : guard2 (normLoop2 e) = false :=
  rewriteLoop_guard_false guard2 body2 body2_shrink (e.length + 1) e (by omega)

theorem normLoop3_guard (e : List Char) : guard3 (normLoop3 e) = false :=
  rewriteLoop_guard_false guard3 body3 body3_shrink (e.length + 1) e (by omega)

/-! ### Support for the idempotence analysis of the normalizer -/

theorem occursIn_stripLeadPlus (pat e : List Char)
    (h : occursIn pat (stripLeadPlus e) = true) : occursIn pat e = true := by
  cases e with
  | nil => simpa [stripLeadPlus] using h
  | cons c t =>
    by_cases hc : c = '+'
    · subst hc
      have ht : stripLeadPlus ('+' :: t) = t := rfl
      rw [ht] at h
      exact occursIn_cons_of_occursIn pat '+' t h
    · have ht : stripLeadPlus (c :: t) = c :: t := by
        simp only [stripLeadPlus]
        split
        · rename_i heq
          cases heq
          exact absurd rfl hc
        · rfl
      rwa [ht] at h

theorem stripLeadPlus_idem (e : List Char) (h : occursIn ['+', '+'] e = false) :
    stripLeadPlus (stripLeadPlus e) = stripLeadPlus e := by
  cases e with
  | nil => rfl
  | cons c t =>
    by_cases hc : c = '+'
    · subst hc
      have ht : stripLeadPlus ('+' :: t) = t := rfl
      rw [ht]
      cases t with
      | nil => rfl
      | cons d u =>
        by_cases hd : d = '+'
        · subst hd
          exfalso
          have hpre : (['+', '+'] : List Char).isPrefixOf ('+' :: '+' :: u) = true := by
            simp [List.isPrefixOf]
          simp [occursIn, hpre] at h
        · simp only [stripLeadPlus]
          split
          · rename_i heq
            cases heq
            exact absurd rfl hd
          · rfl
    · have ht : stripLeadPlus (c :: t) = c :: t := by
        simp only [stripLeadPlus]
        split
        · rename_i heq
          cases heq
          exact absurd rfl hc
        · rfl
      rw [ht, ht]

theorem rewriteLoop_preserve (P : Char → Prop) (g : List Char → Bool)
    (b : List Char → List Char)
    (hb : ∀ e, (∀ c ∈ e, P c) → ∀ c ∈ b e, P c) :
    ∀ f e, (∀ c ∈ e, P c) → ∀ c ∈ rewriteLoop g b f e, P c := by
  intro f
  induction f with
  | zero => intro e he; simpa [rewriteLoop] using he
  | succ f ih =>
    intro e he
    by_cases hg : g e = true
    · simp only [rewriteLoop, hg, if_true]
      exact ih (b e) (hb e he)
    · have hg' : g e = false := by simpa using hg
      simpa only [rewriteLoop, hg', Bool.false_eq_true, if_false] using he

theorem body1_preserve (P : Char → Prop)
    (hP : P '*' ∧ P '(' ∧ P '/' ∧ P '+' ∧ P '-' ∧ P '^') (e : List Char)
    (he : ∀ c ∈ e, P c) : ∀ c ∈ body1 e, P c := by
  intro c hc
  unfold body1 at hc
  rcases mem_replaceAll _ _ _ _ hc with hc | hc
  rotate_left
  · simp at hc; rcases hc with rfl | rfl | rfl <;> tauto
  rcases mem_replaceAll _ _ _ _ hc with hc | hc
  rotate_left
  · simp at hc; rcases hc with rfl | rfl <;> tauto
  rcases mem_replaceAll _ _ _ _ hc with hc | hc
  rotate_left
  · simp at hc; rcases hc with rfl | rfl <;> tauto
  rcases mem_replaceAll _ _ _ _ hc with hc | hc
  rotate_left
  · simp at hc; rcases hc with rfl | rfl <;> tauto
  rcases mem_replaceAll _ _ _ _ hc with hc | hc
  · exact he c hc
  · simp at hc; rcases hc with rfl | rfl <;> tauto

theorem body2_preserve (P : Char → Prop)
    (hP : P '+' ∧ P '-' ∧ P '^') (e : List Char)
    (he : ∀ c ∈ e, P c) : ∀ c ∈ body2 e, P c := by
  intro c hc
  unfold body2 at hc
  rcases mem_replaceAll _ _ _ _ hc with hc | hc
  rotate_left
  · simp at hc; subst hc; tauto
  rcases mem_replaceAll _ _ _ _ hc with hc | hc
  rotate_left
  · simp at hc; subst hc; tauto
  rcases mem_replaceAll _ _ _ _ hc with hc | hc
  rotate_left
  · simp at hc; subst hc; tauto
  rcases mem_replaceAll _ _ _ _ hc with hc | hc
  rotate_left
  · simp at hc; subst hc; tauto
  rcases mem_replaceAll _ _ _ _ hc with hc | hc
  · exact he c hc
  · simp at hc; subst hc; tauto

theorem body3_preserve (P : Char → Prop)
    (hP : P '+' ∧ P '-') (e : List Char)
    (he : ∀ c ∈ e, P c) : ∀ c ∈ body3 e, P c := by
  intro c hc
  unfold body3 at hc
  rcases mem_replaceAll _ _ _ _ hc with hc | hc
  rotate_left
  · simp at hc; subst hc; tauto
  rcases mem_replaceAll _ _ _ _ hc with hc | hc
  · exact he c hc
  · simp at hc; subst hc; tauto

theorem stripLeadPlus_preserve (P : Char → Prop) (e : List Char)
    (he : ∀ c ∈ e, P c) : ∀ c ∈ stripLeadPlus e, P c := by
  cases e with
  | nil => exact he
  | cons c t =>
    intro a ha
    apply he
    unfold stripLeadPlus at ha
    revert ha
    split
    · rename_i heq
      cases heq
      exact fun ha => List.mem_cons_of_mem _ ha
    · exact id

theorem normalize_unary_noWS (e : List Char)
    (he : ∀ c ∈ e, ¬c.isWhitespace) :
    ∀ c ∈ normalize_unary e, ¬c.isWhitespace := by
  have h1 : ∀ c ∈ normLoop1 e, ¬c.isWhitespace :=
    rewriteLoop_preserve _ guard1 body1
      (fun x hx => body1_preserve _ (by decide) x hx) _ e he
  have h2 : ∀ c ∈ normLoop2 (normLoop1 e), ¬c.isWhitespace :=
    rewriteLoop_preserve _ guard2 body2
      (fun x hx => body2_preserve _ (by decide) x hx) _ _ h1
  have h3 : ∀ c ∈ normLoop3 (normLoop2 (normLoop1 e)), ¬c.isWhitespace :=
    rewriteLoop_preserve _ guard3 body3
      (fun x hx => body3_preserve _ (by decide) x hx) _ _ h2
  exact stripLeadPlus_preserve _ _ h3

theorem clean_expression_noWS (s : List Char) :
    ∀ c ∈ clean_expression s, ¬c.isWhitespace := by
  intro c hc
  unfold clean_expression at hc
  have := List.of_mem_filter hc
  simpa using this

theorem clean_expression_of_noWS (e : List Char)
    (he : ∀ c ∈ e, ¬c.isWhitespace) : clean_expression e = e := by
  unfold clean_expression
  apply List.filter_eq_self.mpr
  intro a ha
  simpa using he a ha

theorem occursIn_sub_of_three (e : List Char)
    (h : occursIn ['-', '-'] e = false) : occursIn ['-', '-', '-'] e = false := by
  by_contra hc
  have h3 : occursIn (['-', '-'] ++ ['-']) e = true := by
    simpa using Bool.of_not_eq_false hc
  rw [occursIn_of_occursIn_append _ _ _ h3] at h
  cases h

theorem occursIn_sub_of_four (e : List Char)
    (h : occursIn ['-', '-'] e = false) :
    occursIn ['-', '-', '-', '-'] e = false := by
  by_contra hc
  have h4 : occursIn (['-', '-'] ++ ['-', '-']) e = true := by
    simpa using Bool.of_not_eq_false hc
  rw [occursIn_of_occursIn_append _ _ _ h4] at h
  cases h

/-- The second-loop output determines the whole normal form: the third
loop never fires on it and only the leading-`+` strip remains. -/
theorem normalize_unary_eq_strip (e : List Char) :
    normalize_unary e = stripLeadPlus (normLoop2 (normLoop1 e)) := by
  have hg2 := normLoop2_guard (normLoop1 e)
  have hmm : occursIn ['-', '-'] (normLoop2 (normLoop1 e)) = false := by
    simp only [guard2, Bool.or_eq_false_iff] at hg2
    exact hg2.1.1.1
  have hg3 : guard3 (normLoop2 (normLoop1 e)) = false := by
    simp only [guard3, Bool.or_eq_false_iff]
    exact ⟨occursIn_sub_of_three _ hmm, occursIn_sub_of_four _ hmm⟩
  unfold normalize_unary normLoop3
  rw [rewriteLoop_of_guard_false _ _ _ _ hg3]

/-- Idempotence of the pipeline normalizer, conditional on the normal
form containing none of the four first-loop sign-collision patterns. -/
theorem normalize_idem_aux (s : List Char)
    (h1 : guard1 (normalize s) = false) :
    normalize (normalize s) = normalize s := by
  have hg2 := normLoop2_guard (normLoop1 (clean_expression s))
  have hN : normalize s =
      stripLeadPlus (normLoop2 (normLoop1 (clean_expression s))) :=
    normalize_unary_eq_strip (clean_expression s)
  set e2 := normLoop2 (normLoop1 (clean_expression s)) with he2
  simp only [guard2, Bool.or_eq_false_iff] at hg2
  obtain ⟨⟨⟨hmm, hpm⟩, hmp⟩, hpp⟩ := hg2
  -- the four second-loop patterns are absent from the normal form
  have habs : ∀ p : List Char, occursIn p e2 = false →
      occursIn p (normalize s) = false := by
    intro p hp
    rw [hN]
    by_contra hc
    rw [occursIn_stripLeadPlus p e2 (Bool.of_not_eq_false hc)] at hp
    cases hp
  have hg2n : guard2 (normalize s) = false := by
    simp only [guard2, Bool.or_eq_false_iff]
    exact ⟨⟨⟨habs _ hmm, habs _ hpm⟩, habs _ hmp⟩, habs _ hpp⟩
  have hg3n : guard3 (normalize s) = false := by
    simp only [guard3, Bool.or_eq_false_iff]
    exact ⟨occursIn_sub_of_three _ (habs _ hmm), occursIn_sub_of_four _ (habs _ hmm)⟩
  have hws : ∀ c ∈ normalize s, ¬c.isWhitespace :=
    normalize_unary_noWS _ (clean_expression_noWS s)
  have hstrip : stripLeadPlus (normalize s) = normalize s := by
    rw [hN]
    exact stripLeadPlus_idem e2 hpp
  show normalize_unary (clean_expression (normalize s)) = normalize s
  rw [clean_expression_of_noWS _ hws]
  unfold normalize_unary normLoop1 normLoop2 normLoop3
  rw [rewriteLoop_of_guard_false _ _ _ _ h1,
    rewriteLoop_of_guard_false _ _ _ _ hg2n,
    rewriteLoop_of_guard_false _ _ _ _ hg3n,
    hstrip]

/-! ### The quiet flag, operator selection, and substitution -/

theorem calcLoop_fst_flag (n : Nat) :
    ∀ e b₁ b₂, (calcLoop n e b₁).1 = (calcLoop n e b₂).1 := by
  induction n with
  | zero => intro e b₁ b₂; rfl
  | succ n ih =>
    intro e b₁ b₂
    simp only [calcLoop]
    cases calcStep e with
    | crash => rfl
    | fail err => rfl
    | ok sub a e' => simpa using ih e' b₁ b₂

theorem calculate_fst_flag (e : List Char) (b₁ b₂ : Bool) :
    (calculate e b₁).1 = (calculate e b₂).1 := by
  unfold calculate
  cases hpre : calcPre e with
  | none => rfl
  | some e1 => exact calcLoop_fst_flag _ e1 b₁ b₂

theorem which_operator_exponent (e : List Char)
    (h : find_operator_pos e exponent_tag ≠ -1) :
    which_operator e = find_operator_pos e exponent_tag := by
  simp [which_operator, h]

theorem which_operator_mult_div (e : List Char)
    (h1 : find_operator_pos e exponent_tag = -1)
    (h2 : find_operator_pos e mult_div_tag ≠ -1) :
    which_operator e = find_operator_pos e mult_div_tag := by
  simp [which_operator, h1, h2]

theorem which_operator_add_sub (e : List Char)
    (h1 : find_operator_pos e exponent_tag = -1)
    (h2 : find_operator_pos e mult_div_tag = -1) :
    which_operator e = find_operator_pos e add_sub_tag := by
  simp [which_operator, h1, h2]

theorem rfindNat_none_spec (c : Char) :
    ∀ l, rfindNat c l = none → ∀ x ∈ l, x ≠ c := by
  intro l
  induction l with
  | nil => intro _ x hx; cases hx
  | cons a rest ih =>
    intro h x hx
    simp only [rfindNat] at h
    cases hr : rfindNat c rest with
    | some k => rw [hr] at h; cases h
    | none =>
      rw [hr] at h
      by_cases hac : a = c
      · rw [if_pos hac] at h; cases h
      · rcases List.mem_cons.mp hx with rfl | hx
        · exact hac
        · exact ih hr x hx

theorem rfindNat_some_spec (c : Char) :
    ∀ l k, rfindNat c l = some k →
      k < l.length ∧ charAt l k = c ∧
        ∀ j, k < j → j < l.length → charAt l j ≠ c := by
  intro l
  induction l with
  | nil => intro k h; cases h
  | cons a rest ih =>
    intro k h
    simp only [rfindNat] at h
    cases hr : rfindNat c rest with
    | some m =>
      rw [hr] at h
      injection h with h
      subst h
      obtain ⟨h1, h2, h3⟩ := ih m hr
      refine ⟨by simpa using h1, by simpa [charAt] using h2, ?_⟩
      intro j hj1 hj2
      cases j with
      | zero => omega
      | succ j =>
        have := h3 j (by omega) (by simpa using hj2)
        simpa [charAt] using this
    | none =>
      rw [hr] at h
      by_cases hac : a = c
      · rw [if_pos hac] at h
        injection h with h
        subst h
        refine ⟨by simp, by simpa [charAt] using hac, ?_⟩
        intro j hj1 hj2
        cases j with
        | zero => omega
        | succ j =>
          have := rfindNat_none_spec c rest hr (charAt rest j)
          intro hcontra
          have hmem : charAt rest j ∈ rest := by
            have hjlen : j < rest.length := by simpa using hj2
            show rest.getD j ' ' ∈ rest
            rw [List.getD_eq_getElem rest ' ' hjlen]
            exact List.getElem_mem hjlen
          have := this hmem
          simp only [charAt, List.getD_cons_succ] at hcontra
          exact this hcontra
      · rw [if_neg hac] at h; cases h

theorem findFirstOpChar_some_mem (ops : List Char) :
    ∀ l i c, findFirstOpChar ops i l = some c → c ∈ ops := by
  intro l
  induction l with
  | nil => intro i c h; cases h
  | cons x rest ih =>
    intro i c h
    simp only [findFirstOpChar] at h
    by_cases hx : x ∈ ops ∧ ¬(x = '-' ∧ i = 0)
    · rw [if_pos hx] at h
      injection h with h
      subst h
      exact hx.1
    · rw [if_neg hx] at h
      exact ih (i + 1) c h

theorem findCharFromAux_some_charAt (c : Char) (start : Nat) :
    ∀ l i k, findCharFromAux c start l i = some k →
      i ≤ k ∧ k - i < l.length ∧ charAt l (k - i) = c := by
  intro l
  induction l with
  | nil => intro i k h; cases h
  | cons x rest ih =>
    intro i k h
    simp only [findCharFromAux] at h
    by_cases hx : start ≤ i ∧ x = c
    · rw [if_pos hx] at h
      injection h with h
      subst h
      exact ⟨le_refl _, by simp, by simpa [charAt] using hx.2⟩
    · rw [if_neg hx] at h
      obtain ⟨h1, h2, h3⟩ := ih (i + 1) k h
      refine ⟨by omega, by simp; omega, ?_⟩
      have hk : k - i = (k - (i + 1)) + 1 := by omega
      rw [hk]
      simpa [charAt] using h3

theorem findCharFrom_charAt (l : List Char) (c : Char) (start : Nat) (p : Int)
    (hp : findCharFrom l c start = p) (hge : 0 ≤ p) :
    charAt l p.toNat = c := by
  unfold findCharFrom at hp
  cases hfa : findCharFromAux c start l 0 with
  | none => simp only [hfa] at hp; omega
  | some k =>
    simp only [hfa] at hp
    obtain ⟨_, _, h3⟩ := findCharFromAux_some_charAt c start l 0 k hfa
    subst hp
    simpa using h3

theorem findOpLoop_charAt (e : List Char) (ops : List Char) (p : Int)
    (hp : findOpLoop e ops = p) (hge : 0 ≤ p) :
    charAt e p.toNat ∈ ops := by
  unfold findOpLoop at hp
  cases hff : findFirstOpChar ops 0 e with
  | none => simp only [hff] at hp; omega
  | some c =>
    simp only [hff] at hp
    have hmem := findFirstOpChar_some_mem ops e 0 c hff
    by_cases hcond : c = '-' ∧ e.head? = some '-'
    · rw [if_pos hcond] at hp
      rw [findCharFrom_charAt e '-' 1 p hp hge, ← hcond.1]
      exact hmem
    · rw [if_neg hcond] at hp
      rw [findCharFrom_charAt e c 0 p hp hge]
      exact hmem

/-- The mult/div/mod-tier scan returns a position holding `*`, `/` or `%`. -/
theorem find_operator_pos_mult_div_char (e : List Char) (p : Int)
    (hp : find_operator_pos e mult_div_tag = p) (hge : 0 ≤ p) :
    charAt e p.toNat ∈ (['*', '/', '%'] : List Char) := by
  unfold find_operator_pos at hp
  rw [if_pos rfl] at hp
  exact findOpLoop_charAt e _ p hp hge

/-- The add/sub-tier scan returns a position holding `+` or `-`. -/
theorem find_operator_pos_add_sub_char (e : List Char) (p : Int)
    (hp : find_operator_pos e add_sub_tag = p) (hge : 0 ≤ p) :
    charAt e p.toNat ∈ (['+', '-'] : List Char) := by
  unfold find_operator_pos at hp
  rw [if_neg (by decide), if_neg (by decide)] at hp
  exact findOpLoop_charAt e _ p hp hge

theorem findFirstOpChar_none_of_all (ops : List Char) :
    ∀ l i, (∀ x ∈ l, x ∉ ops) → findFirstOpChar ops i l = none := by
  intro l
  induction l with
  | nil => intro i _; rfl
  | cons a rest ih =>
    intro i h
    simp only [findFirstOpChar]
    rw [if_neg, ih (i + 1) (fun x hx => h x (List.mem_cons_of_mem a hx))]
    intro hcon
    exact h a (List.mem_cons_self a rest) hcon.1

/-- The exponent-tier scan: a non-`-1` result is the index of the LAST
`^` in the string (rightmost selection). -/
theorem find_operator_pos_exponent_spec (e : List Char) (p : Int)
    (hp : find_operator_pos e exponent_tag = p) (hge : 0 ≤ p) :
    p < (e.length : Int) ∧ charAt e p.toNat = '^' ∧
      ∀ j, p.toNat < j → j < e.length → charAt e j ≠ '^' := by
  unfold find_operator_pos at hp
  rw [if_neg (by decide), if_pos rfl] at hp
  by_cases hc : e.contains '^'
  · rw [if_pos hc] at hp
    unfold rfindChar at hp
    cases hr : rfindNat '^' e with
    | none => simp only [hr] at hp; omega
    | some k =>
      simp only [hr] at hp
      obtain ⟨h1, h2, h3⟩ := rfindNat_some_spec '^' e k hr
      subst hp
      refine ⟨by simpa using h1, by simpa using h2, by simpa using h3⟩
  · rw [if_neg hc] at hp
    exfalso
    have hall : ∀ x ∈ e, x ∉ (['^'] : List Char) := by
      intro x hx hmem
      simp only [List.mem_singleton] at hmem
      subst hmem
      exact hc (List.elem_iff.mpr hx)
    unfold findOpLoop at hp
    simp only [findFirstOpChar_none_of_all _ _ _ hall] at hp
    omega

/-- A successful reduction step substitutes with `replaceAll` (every
occurrence), since the source uses `expr.replace(sub_exp, str(answer))`. -/
theorem calcStep_ok_subst (expr sub : List Char) (a : ℚ) (e' : List Char)
    (h : calcStep expr = .ok sub a e') :
    e' = replaceAll sub (pyStrNum a) expr := by
  simp only [calcStep] at h
  cases hsub : get_subexpression expr (which_operator expr) with
  | none => simp only [hsub] at h; exact StepRes.noConfusion h
  | some t =>
    obtain ⟨sub1, l1, r1⟩ := t
    simp only [hsub] at h
    cases hel : get_elements expr l1 r1 (which_operator expr) with
    | none => simp only [hel] at h; exact StepRes.noConfusion h
    | some t2 =>
      obtain ⟨f1, s1, op1⟩ := t2
      simp only [hel] at h
      cases hm : do_the_math f1 s1 op1 with
      | error e0 => simp only [hm] at h; exact StepRes.noConfusion h
      | ok ans =>
        simp only [hm] at h
        cases h
        rfl

/-- `replaceAll` works left to right: when no occurrence of the pattern
starts inside `a`, the occurrence sitting between `a` and `b` is replaced
and replacement continues on `b` alone. -/
theorem replaceAll_left_to_right (pat rep : List Char) (hpat : pat ≠ []) :
    ∀ a b, (∀ i, i < a.length → pat.isPrefixOf ((a ++ (pat ++ b)).drop i) = false) →
      replaceAll pat rep (a ++ (pat ++ b)) = a ++ (rep ++ replaceAll pat rep b) := by
  intro a
  induction a with
  | nil =>
    intro b _
    simp only [List.nil_append]
    match pat, hpat with
    | p0 :: pt, _ =>
      rw [List.cons_append, replaceAll_cons,
        if_pos (List.isPrefixOf_iff_prefix.mpr (by rw [← List.cons_append]; exact List.prefix_append _ _))]
      simp only [List.length_cons, Nat.add_sub_cancel, List.drop_left]
  | cons c a' ih =>
    intro b h
    have h0 : pat.isPrefixOf (c :: (a' ++ (pat ++ b))) = false := by
      simpa using h 0 (by simp)
    have hshift : ∀ i, i < a'.length →
        pat.isPrefixOf ((a' ++ (pat ++ b)).drop i) = false := by
      intro i hi
      have := h (i + 1) (by simpa using Nat.succ_lt_succ hi)
      simpa using this
    rw [List.cons_append, replaceAll_cons, if_neg (by simp [h0]), ih b hshift,
      List.cons_append]

/-! ### Bracket location: specifications of the two scans -/

theorem firstCloserAux_none_spec :
    ∀ l, firstCloserAux l = none → ∀ c ∈ l, c ∉ closersL := by
  intro l
  induction l with
  | nil => intro _ c hc; cases hc
  | cons a rest ih =>
    intro h c hc
    simp only [firstCloserAux] at h
    by_cases ha : a ∈ closersL
    · rw [if_pos ha] at h; cases h
    · rw [if_neg ha] at h
      rcases List.mem_cons.mp hc with rfl | hc
      · exact ha
      · cases hr : firstCloserAux rest with
        | none => exact ih hr c hc
        | some k => rw [hr] at h; cases h

theorem firstCloserAux_some_spec :
    ∀ l k, firstCloserAux l = some k →
      k < l.length ∧ charAt l k ∈ closersL ∧ ∀ j, j < k → charAt l j ∉ closersL := by
  intro l
  induction l with
  | nil => intro k h; cases h
  | cons a rest ih =>
    intro k h
    simp only [firstCloserAux] at h
    by_cases ha : a ∈ closersL
    · rw [if_pos ha] at h
      injection h with h
      subst h
      exact ⟨by simp, by simpa [charAt] using ha, by omega⟩
    · rw [if_neg ha] at h
      cases hr : firstCloserAux rest with
      | none => rw [hr] at h; cases h
      | some m =>
        simp only [hr, Option.map_some'] at h
        injection h with h
        subst h
        obtain ⟨h1, h2, h3⟩ := ih m hr
        refine ⟨by simpa using h1, by simpa [charAt] using h2, ?_⟩
        intro j hj
        cases j with
        | zero => simpa [charAt] using ha
        | succ j =>
          have := h3 j (by omega)
          simpa [charAt] using this

theorem openBackAux_none_spec (e : List Char) :
    ∀ l, openBackAux e l = none → ∀ j, j ≤ l → charAt e j ∉ openersL := by
  intro l
  induction l with
  | zero =>
    intro h j hj
    interval_cases j
    simp only [openBackAux] at h
    by_cases h0 : charAt e 0 ∈ openersL
    · rw [if_pos h0] at h; cases h
    · exact h0
  | succ l ih =>
    intro h j hj
    simp only [openBackAux] at h
    by_cases hl : charAt e (l + 1) ∈ openersL
    · rw [if_pos hl] at h; cases h
    · rw [if_neg hl] at h
      rcases Nat.lt_or_ge j (l + 1) with hlt | hge
      · exact ih h j (by omega)
      · have : j = l + 1 := by omega
        subst this
        exact hl

theorem openBackAux_some_spec (e : List Char) :
    ∀ l k, openBackAux e l = some k →
      k ≤ l ∧ charAt e k ∈ openersL ∧ ∀ j, k < j → j ≤ l → charAt e j ∉ openersL := by
  intro l
  induction l with
  | zero =>
    intro k h
    simp only [openBackAux] at h
    by_cases h0 : charAt e 0 ∈ openersL
    · rw [if_pos h0] at h
      injection h with h
      subst h
      exact ⟨le_refl _, h0, by omega⟩
    · rw [if_neg h0] at h; cases h
  | succ l ih =>
    intro k h
    simp only [openBackAux] at h
    by_cases hl : charAt e (l + 1) ∈ openersL
    · rw [if_pos hl] at h
      injection h with h
      subst h
      exact ⟨le_refl _, hl, by omega⟩
    · rw [if_neg hl] at h
      obtain ⟨h1, h2, h3⟩ := ih k h
      refine ⟨by omega, h2, ?_⟩
      intro j hj1 hj2
      rcases Nat.lt_or_ge j (l + 1) with hlt | hge
      · exact h3 j hj1 (by omega)
      · have : j = l + 1 := by omega
        subst this
        exact hl

/-! ### Slice and counting helpers -/

theorem pyBound_nat (len a : Nat) :
    pyBound len ((a : Nat) : Int) = if a ≤ len then a else len := by
  unfold pyBound
  rw [if_neg (by omega)]
  simp [Int.toNat_natCast]

theorem pySlice_nat (l : List Char) (a b : Nat) :
    pySlice l ((a : Int)) ((b : Int)) = (l.take b).drop a := by
  unfold pySlice
  rw [pyBound_nat, pyBound_nat]
  by_cases hb : b ≤ l.length
  · rw [if_pos hb]
    by_cases ha : a ≤ l.length
    · rw [if_pos ha]
    · rw [if_neg ha]
      have e1 : (l.take b).length ≤ l.length := by simp
      have e2 : (l.take b).length ≤ a := by simp; omega
      rw [List.drop_eq_nil_of_le e1, List.drop_eq_nil_of_le e2]
  · rw [if_neg hb, List.take_length, List.take_of_length_le (by omega)]
    by_cases ha : a ≤ l.length
    · rw [if_pos ha]
    · rw [if_neg ha]
      have e1 : l.length ≤ l.length := le_refl _
      have e2 : l.length ≤ a := by omega
      rw [List.drop_eq_nil_of_le e1, List.drop_eq_nil_of_le e2]

theorem pySlice_zero_nat (l : List Char) (b : Nat) :
    pySlice l 0 ((b : Int)) = l.take b := by
  have := pySlice_nat l 0 b
  simpa using this

theorem pySlice_to_end (l : List Char) (a : Nat) :
    pySlice l ((a : Int)) ((l.length : Int)) = l.drop a := by
  have := pySlice_nat l a l.length
  simpa using this

theorem countOpeners_append (a b : List Char) :
    countOpeners (a ++ b) = countOpeners a + countOpeners b := by
  unfold countOpeners
  rw [List.filter_append, List.length_append]

theorem countOpeners_cons (c : Char) (b : List Char) :
    countOpeners (c :: b) =
      (if c ∈ openersL then 1 else 0) + countOpeners b := by
  unfold countOpeners
  by_cases hc : c ∈ openersL
  · rw [if_pos hc, List.filter_cons_of_pos (by simpa using hc)]
    simp [Nat.add_comm]
  · rw [if_neg hc, List.filter_cons_of_neg (by simpa using hc)]
    simp

theorem countOpeners_eq_zero (a : List Char)
    (h : ∀ c ∈ a, c ∉ openersL) : countOpeners a = 0 := by
  unfold countOpeners
  simp only [List.length_eq_zero, List.filter_eq_nil_iff]
  intro c hc
  simpa using h c hc

theorem countOpeners_pos (a : List Char) (c : Char) (hc : c ∈ a)
    (hop : c ∈ openersL) : 0 < countOpeners a := by
  unfold countOpeners
  have : c ∈ a.filter (fun x => x ∈ openersL) :=
    List.mem_filter.mpr ⟨hc, by simpa using hop⟩
  exact List.length_pos.mpr (List.ne_nil_of_mem this)

/-- Characters of a middle slice, indexed in the original string. -/
theorem mem_take_drop_charAt (e : List Char) (i j : Nat) (c : Char)
    (hc : c ∈ (e.take j).drop i) :
    ∃ k, i ≤ k ∧ k < j ∧ k < e.length ∧ c = charAt e k := by
  obtain ⟨p, hp, hval⟩ := List.mem_iff_getElem.mp hc
  have hlen : p < (e.take j).length - i := by simpa using hp
  have hlen2 : (e.take j).length = min j e.length := by simp
  have hip : i + p < (e.take j).length := by omega
  have hip2 : i + p < e.length := by omega
  refine ⟨i + p, by omega, by omega, hip2, ?_⟩
  rw [← hval]
  rw [List.getElem_drop, List.getElem_take]
  show _ = charAt e (i + p)
  rw [charAt, List.getD_eq_getElem e ' ' hip2]

theorem mem_take_charAt (e : List Char) (j : Nat) (c : Char)
    (hc : c ∈ e.take j) :
    ∃ k, k < j ∧ k < e.length ∧ c = charAt e k := by
  have : c ∈ (e.take j).drop 0 := by simpa using hc
  obtain ⟨k, _, h2, h3, h4⟩ := mem_take_drop_charAt e 0 j c this
  exact ⟨k, h2, h3, h4⟩

/-! ### Specification-side stack lemmas -/

theorem runStack_append :
    ∀ (a : List Char) (s : List Char) (b : List Char),
      runStack s (a ++ b) = (runStack s a).bind (fun s' => runStack s' b) := by
  intro a
  induction a with
  | nil => intro s b; rfl
  | cons c rest ih =>
    intro s b
    simp only [List.cons_append, runStack]
    by_cases hco : c ∈ openersL
    · rw [if_pos hco, if_pos hco]
      exact ih (c :: s) b
    · rw [if_neg hco, if_neg hco]
      by_cases hcc : c ∈ closersL
      · rw [if_pos hcc, if_pos hcc]
        cases s with
        | nil => rfl
        | cons top ts =>
          show (if top = pairOf c then runStack ts (rest ++ b) else none) =
            (if top = pairOf c then runStack ts rest else none).bind
              (fun s' => runStack s' b)
          by_cases hpair : top = pairOf c
          · rw [if_pos hpair, if_pos hpair]
            exact ih ts b
          · rw [if_neg hpair, if_neg hpair]; rfl
      · rw [if_neg hcc, if_neg hcc]
        exact ih s b

theorem runStack_brFree (a : List Char) (ha : brFree a) :
    ∀ s, runStack s a = some s := by
  induction a with
  | nil => intro s; rfl
  | cons c rest ih =>
    intro s
    have hc := ha c (List.mem_cons_self _ _)
    simp only [runStack]
    rw [if_neg hc.1, if_neg hc.2]
    exact ih (fun x hx => ha x (List.mem_cons_of_mem _ hx)) s

theorem runStack_no_closers (a : List Char) (ha : ∀ c ∈ a, c ∉ closersL) :
    ∀ s, ∃ s', runStack s a = some s' ∧
      s'.length = s.length + countOpeners a := by
  induction a with
  | nil => intro s; exact ⟨s, rfl, by simp [countOpeners]⟩
  | cons c rest ih =>
    intro s
    have hc := ha c (List.mem_cons_self _ _)
    simp only [runStack]
    by_cases hco : c ∈ openersL
    · rw [if_pos hco]
      obtain ⟨s', h1, h2⟩ := ih (fun x hx => ha x (List.mem_cons_of_mem _ hx)) (c :: s)
      refine ⟨s', h1, ?_⟩
      rw [countOpeners_cons, if_pos hco]
      simp at h2
      omega
    · rw [if_neg hco, if_neg hc]
      obtain ⟨s', h1, h2⟩ := ih (fun x hx => ha x (List.mem_cons_of_mem _ hx)) s
      refine ⟨s', h1, ?_⟩
      rw [countOpeners_cons, if_neg hco]
      omega

/-- Splitting a string at two positions `i < j < len`. -/
theorem decompose_two (e : List Char) (i j : Nat) (hij : i < j)
    (hj : j < e.length) :
    e = e.take i ++ charAt e i ::
        (((e.take j).drop (i + 1)) ++ charAt e j :: e.drop (j + 1)) := by
  have hi : i < e.length := by omega
  have h1 : e = e.take i ++ e.drop i := (List.take_append_drop i e).symm
  have h2 : e.drop i = e[i] :: e.drop (i + 1) := List.drop_eq_getElem_cons hi
  have h3 : e.drop (i + 1) =
      (e.take j).drop (i + 1) ++ e.drop j := by
    conv_lhs => rw [← List.take_append_drop j e]
    rw [List.drop_append_of_le_length (by simp; omega)]
  have h4 : e.drop j = e[j] :: e.drop (j + 1) := List.drop_eq_getElem_cons hj
  have hci : charAt e i = e[i] := List.getD_eq_getElem e ' ' hi
  have hcj : charAt e j = e[j] := List.getD_eq_getElem e ' ' hj
  rw [hci, hcj]
  conv_lhs => rw [h1, h2, h3, h4]

/-! ### `calculate` preserves bracket-freeness -/

theorem digitChar_not_bracket (n : Nat) :
    digitChar n ∉ openersL ∧ digitChar n ∉ closersL := by
  unfold digitChar
  split <;> exact (by decide)

theorem natDigitsAux_not_bracket :
    ∀ f n c, c ∈ natDigitsAux f n → c ∉ openersL ∧ c ∉ closersL := by
  intro f
  induction f with
  | zero => intro n c hc; cases hc
  | succ f ih =>
    intro n c hc
    simp only [natDigitsAux] at hc
    by_cases hn : n < 10
    · rw [if_pos hn] at hc
      simp only [List.mem_singleton] at hc
      subst hc
      exact digitChar_not_bracket n
    · rw [if_neg hn] at hc
      rcases List.mem_append.mp hc with hc | hc
      · exact ih _ c hc
      · simp only [List.mem_singleton] at hc
        subst hc
        exact digitChar_not_bracket _

theorem intStr_not_bracket (n : Int) :
    ∀ c ∈ intStr n, c ∉ openersL ∧ c ∉ closersL := by
  intro c hc
  unfold intStr natDigits at hc
  by_cases hn : n < 0
  · rw [if_pos hn] at hc
    rcases List.mem_cons.mp hc with rfl | hc
    · exact (by decide)
    · exact natDigitsAux_not_bracket _ _ c hc
  · rw [if_neg hn] at hc
    exact natDigitsAux_not_bracket _ _ c hc

theorem fracDigitsAux_not_bracket :
    ∀ f x c, c ∈ fracDigitsAux f x → c ∉ openersL ∧ c ∉ closersL := by
  intro f
  induction f with
  | zero => intro x c hc; cases hc
  | succ f ih =>
    intro x c hc
    simp only [fracDigitsAux] at hc
    rcases List.mem_cons.mp hc with rfl | hc
    · exact digitChar_not_bracket _
    · exact ih _ c hc

theorem trimZeros_subset (l : List Char) : ∀ c ∈ trimZeros l, c ∈ l := by
  intro c hc
  unfold trimZeros at hc
  rw [List.mem_reverse] at hc
  have := (List.dropWhile_sublist (l := l.reverse) (· = '0')).subset hc
  exact List.mem_reverse.mp this

theorem floatStr_not_bracket (q : ℚ) :
    ∀ c ∈ floatStr q, c ∉ openersL ∧ c ∉ closersL := by
  intro c hc
  unfold floatStr at hc
  simp only [List.mem_append, List.mem_cons] at hc
  rcases hc with (hc | hc) | hc | hc
  · by_cases hq : q < 0
    · rw [if_pos hq] at hc
      simp only [List.mem_singleton] at hc
      subst hc
      exact (by decide)
    · rw [if_neg hq] at hc
      cases hc
  · exact natDigitsAux_not_bracket _ _ c hc
  · subst hc; exact (by decide)
  · by_cases hds : (trimZeros (fracDigitsAux 17
        (ratAbs q - ((ratAbs q).floor.toNat : ℚ)))).isEmpty
    · rw [if_pos hds] at hc
      simp only [List.mem_singleton] at hc
      subst hc
      exact (by decide)
    · rw [if_neg hds] at hc
      exact fracDigitsAux_not_bracket _ _ c (trimZeros_subset _ c hc)

theorem pyStrNum_not_bracket (q : ℚ) :
    ∀ c ∈ pyStrNum q, c ∉ openersL ∧ c ∉ closersL := by
  intro c hc
  unfold pyStrNum at hc
  by_cases hq : q.den = 1
  · rw [if_pos hq] at hc
    exact intStr_not_bracket _ c hc
  · rw [if_neg hq] at hc
    exact floatStr_not_bracket _ c hc

theorem pySlice_subset (l : List Char) (a b : Int) :
    ∀ c ∈ pySlice l a b, c ∈ l := by
  intro c hc
  unfold pySlice at hc
  exact List.take_subset _ _ (List.drop_subset _ _ hc)

theorem stripOddGo_subset (orig : List Char) :
    ∀ rest i cur out, stripOddGo orig rest i cur = some out →
      ∀ c ∈ out, c ∈ cur := by
  intro rest
  induction rest with
  | nil =>
    intro i cur out h c hc
    simp only [stripOddGo] at h
    injection h with h
    subst h
    exact hc
  | cons each rest ih =>
    intro i cur out h c hc
    simp only [stripOddGo] at h
    by_cases he : each = '+'
    · rw [if_pos he] at h
      cases hpi : pyIndex cur ((i : Int) - 1) with
      | none => rw [hpi] at h; cases h
      | some prev =>
        rw [hpi] at h
        have h' : (if prev ∈ OPERATORS then
            stripOddGo orig rest (i + 1)
              (pySlice cur 0 (i : Int) ++ pySlice cur ((i : Int) + 1) (cur.length : Int))
          else stripOddGo orig rest (i + 1) cur) = some out := h
        by_cases hprev : prev ∈ OPERATORS
        · rw [if_pos hprev] at h'
          have := ih _ _ _ h' c hc
          rcases List.mem_append.mp this with h2 | h2
          · exact pySlice_subset _ _ _ c h2
          · exact pySlice_subset _ _ _ c h2
        · rw [if_neg hprev] at h'
          exact ih _ _ _ h' c hc
    · rw [if_neg he] at h
      exact ih _ _ _ h c hc

theorem calcPre_brFree (e e1 : List Char) (he : brFree e)
    (h : calcPre e = some e1) : brFree e1 := by
  unfold calcPre at h
  by_cases h1 : findSubPos ['-', '-'] e ≠ -1
  · rw [if_pos h1] at h
    by_cases h2 : findSubPos ['-', '-'] e = 0
    · rw [if_pos h2] at h
      injection h with h
      subst h
      intro c hc
      rcases mem_replaceAll _ _ _ c hc with hc | hc
      · exact he c hc
      · cases hc
    · rw [if_neg h2] at h
      intro c hc
      have := stripOddGo_subset _ _ _ _ _ h c hc
      rcases mem_replaceAll _ _ _ c this with h3 | h3
      · exact he c h3
      · simp only [List.mem_singleton] at h3
        subst h3
        exact (by decide)
  · rw [if_neg h1] at h
    injection h with h
    subst h
    exact he

theorem ERRORtext_brFree : brFree ERRORtext := by decide

theorem calcLoop_brFree :
    ∀ n e b out, brFree e → (calcLoop n e b).1 = some out → brFree out := by
  intro n
  induction n with
  | zero =>
    intro e b out he h
    injection h with h
    subst h
    exact he
  | succ n ih =>
    intro e b out he h
    simp only [calcLoop] at h
    cases hstep : calcStep e with
    | crash => rw [hstep] at h; cases h
    | fail err =>
      rw [hstep] at h
      injection h with h
      subst h
      exact ERRORtext_brFree
    | ok sub a e' =>
      rw [hstep] at h
      simp only at h
      refine ih e' b out ?_ h
      have hsub := calcStep_ok_subst e sub a e' hstep
      subst hsub
      intro c hc
      rcases mem_replaceAll _ _ _ c hc with hc | hc
      · exact he c hc
      · exact pyStrNum_not_bracket a c hc

theorem calculate_brFree (e : List Char) (b : Bool) (out : List Char)
    (he : brFree e) (h : (calculate e b).1 = some out) : brFree out := by
  unfold calculate at h
  cases hpre : calcPre e with
  | none => rw [hpre] at h; cases h
  | some e1 =>
    rw [hpre] at h
    exact calcLoop_brFree _ e1 b out (calcPre_brFree e e1 he hpre) h

theorem closer_not_opener (c : Char) (h : c ∈ closersL) : c ∉ openersL := by
  simp only [closersL, List.mem_cons, List.not_mem_nil, or_false] at h
  rcases h with rfl | rfl | rfl <;> decide

theorem opener_not_closer (c : Char) (h : c ∈ openersL) : c ∉ closersL := by
  simp only [openersL, List.mem_cons, List.not_mem_nil, or_false] at h
  rcases h with rfl | rfl | rfl <;> decide

theorem hasOpener_exists (e : List Char) (h : hasOpener e = true) :
    ∃ c ∈ e, c ∈ openersL := by
  unfold hasOpener at h
  simp only [Bool.or_eq_true] at h
  rcases h with (h | h) | h
  · exact ⟨'(', List.elem_iff.mp h, by decide⟩
  · exact ⟨'[', List.elem_iff.mp h, by decide⟩
  · exact ⟨'\x7b', List.elem_iff.mp h, by decide⟩

/-- In a balanced expression containing an opening bracket, the two scans
of `evaluate_expression` locate a closer `m` (first in the string) and an
opener `k < m` (nearest below `m`); the region between them is
bracket-free, the two brackets match in kind, and substituting any
bracket-free string for the whole `k..m` span keeps the expression
balanced and removes exactly one opener. -/
theorem bracket_locate (e : List Char) (hb : BalancedB e = true)
    (hop : hasOpener e = true) :
    ∃ k m : Nat,
      findFirstCloser e = (m : Int) ∧
      findOpenBack e ((m : Int)) = (k : Int) ∧
      k < m ∧ m < e.length ∧
      charAt e m ∈ closersL ∧ (∀ j, j < m → charAt e j ∉ closersL) ∧
      charAt e k ∈ openersL ∧ (∀ j, k < j → j ≤ m → charAt e j ∉ openersL) ∧
      brFree ((e.take m).drop (k + 1)) ∧
      (∀ ir, brFree ir →
        BalancedB (e.take k ++ ir ++ e.drop (m + 1)) = true ∧
        countOpeners (e.take k ++ ir ++ e.drop (m + 1)) + 1 = countOpeners e) := by
  obtain ⟨copen, hcmem, hcop⟩ := hasOpener_exists e hop
  unfold BalancedB at hb
  simp only [decide_eq_true_eq] at hb
  -- the first closer exists
  cases hfc : firstCloserAux e with
  | none =>
    exfalso
    have hnc := firstCloserAux_none_spec e hfc
    obtain ⟨s', h1, h2⟩ := runStack_no_closers e hnc []
    rw [hb] at h1
    injection h1 with h1
    have := countOpeners_pos e copen hcmem hcop
    rw [← h1] at h2
    simp at h2
    omega
  | some m =>
    obtain ⟨hmlen, hmcl, hmfirst⟩ := firstCloserAux_some_spec e m hfc
    -- the backward opener exists
    cases hob : openBackAux e m with
    | none =>
      exfalso
      have hno := openBackAux_none_spec e m hob
      have htake : brFree (e.take m) := by
        intro c hc
        obtain ⟨idx, hidx1, hidx2, rfl⟩ := mem_take_charAt e m c hc
        exact ⟨hno idx (by omega), hmfirst idx hidx1⟩
      have hsplit : e = e.take m ++ e.drop m := (List.take_append_drop m e).symm
      have hdrop : e.drop m = e[m] :: e.drop (m + 1) :=
        List.drop_eq_getElem_cons hmlen
      have hcm : charAt e m = e[m] := List.getD_eq_getElem e ' ' hmlen
      rw [hsplit, runStack_append, runStack_brFree _ htake, Option.some_bind,
        hdrop, ← hcm] at hb
      unfold runStack at hb
      rw [if_neg (closer_not_opener _ hmcl), if_pos hmcl] at hb
      cases hb
    | some k =>
      obtain ⟨hkm, hkop, hknone⟩ := openBackAux_some_spec e m k hob
      have hkm' : k < m := by
        rcases Nat.lt_or_ge k m with h | h
        · exact h
        · exfalso
          have : k = m := by omega
          subst this
          exact closer_not_opener _ hmcl hkop
      have hinner : brFree ((e.take m).drop (k + 1)) := by
        intro c hc
        obtain ⟨idx, hidx1, hidx2, hidx3, rfl⟩ := mem_take_drop_charAt e (k + 1) m c hc
        exact ⟨hknone idx (by omega) (by omega), hmfirst idx hidx2⟩
      have hdec := decompose_two e k m hkm' hmlen
      -- run the stack over the decomposition
      rw [hdec, runStack_append] at hb
      obtain ⟨S, hS, hrest⟩ := Option.bind_eq_some.mp hb
      unfold runStack at hrest
      rw [if_pos hkop] at hrest
      rw [runStack_append] at hrest
      rw [runStack_brFree _ hinner, Option.some_bind] at hrest
      have hrest2 : (if charAt e m ∈ openersL then
            runStack (charAt e m :: charAt e k :: S) (e.drop (m + 1))
          else if charAt e m ∈ closersL then
            (if charAt e k = pairOf (charAt e m) then
              runStack S (e.drop (m + 1)) else none)
          else runStack (charAt e k :: S) (e.drop (m + 1))) = some [] := hrest
      rw [if_neg (closer_not_opener _ hmcl), if_pos hmcl] at hrest2
      have hpair : charAt e k = pairOf (charAt e m) := by
        by_contra hne
        rw [if_neg hne] at hrest2
        cases hrest2
      rw [if_pos hpair] at hrest2
      refine ⟨k, m, ?_, ?_, hkm', hmlen, hmcl, hmfirst, hkop, hknone, hinner, ?_⟩
      · unfold findFirstCloser
        rw [hfc]
      · unfold findOpenBack
        rw [if_neg (by omega)]
        simp only [Int.toNat_natCast]
        rw [hob]
      · intro ir hir
        constructor
        · unfold BalancedB
          simp only [decide_eq_true_eq]
          rw [List.append_assoc, runStack_append, hS, Option.some_bind,
            runStack_append, runStack_brFree _ hir, Option.some_bind]
          exact hrest2
        · rw [List.append_assoc]
          have hA := countOpeners_append (e.take k) (ir ++ e.drop (m + 1))
          have hA2 := countOpeners_append ir (e.drop (m + 1))
          have hz : countOpeners ir = 0 :=
            countOpeners_eq_zero ir (fun c hc => (hir c hc).1)
          have hz2 : countOpeners ((e.take m).drop (k + 1)) = 0 :=
            countOpeners_eq_zero _ (fun c hc => (hinner c hc).1)
          have hE : countOpeners e =
              countOpeners (e.take k) + 1 + countOpeners (e.drop (m + 1)) := by
            conv_lhs => rw [hdec]
            rw [countOpeners_append, countOpeners_cons, if_pos hkop,
              countOpeners_append, countOpeners_cons,
              if_neg (closer_not_opener _ hmcl), hz2]
            omega
          rw [hA, hA2, hz, hE]
          omega

theorem pySlice_inner (e : List Char) (k m : Nat) :
    pySlice e ((k : Int) + 1) ((m : Int)) = (e.take m).drop (k + 1) := by
  have h : ((k : Int) + 1) = (((k + 1 : Nat) : Int)) := by push_cast; ring
  rw [h, pySlice_nat]

theorem pySlice_after (e : List Char) (m : Nat) :
    pySlice e ((m : Int) + 1) ((e.length : Int)) = e.drop (m + 1) := by
  have h : ((m : Int) + 1) = (((m + 1 : Nat) : Int)) := by push_cast; ring
  rw [h, pySlice_to_end]

theorem balanced_no_opener_no_closer (e : List Char)
    (hb : runStack [] e = some []) (hno : ∀ c ∈ e, c ∉ openersL) :
    ∀ c ∈ e, c ∉ closersL := by
  intro c hc hccl
  cases hfc : firstCloserAux e with
  | none => exact firstCloserAux_none_spec e hfc c hc hccl
  | some m =>
    obtain ⟨hmlen, hmcl, hmfirst⟩ := firstCloserAux_some_spec e m hfc
    have htake : brFree (e.take m) := by
      intro x hx
      obtain ⟨idx, hidx1, hidx2, rfl⟩ := mem_take_charAt e m x hx
      refine ⟨?_, hmfirst idx hidx1⟩
      intro hxop
      have hmem : charAt e idx ∈ e := by
        rw [charAt, List.getD_eq_getElem e ' ' hidx2]
        exact List.getElem_mem hidx2
      exact hno _ hmem hxop
    have hsplit : e = e.take m ++ e.drop m := (List.take_append_drop m e).symm
    have hdrop : e.drop m = e[m] :: e.drop (m + 1) :=
      List.drop_eq_getElem_cons hmlen
    have hcm : charAt e m = e[m] := List.getD_eq_getElem e ' ' hmlen
    rw [hsplit, runStack_append, runStack_brFree _ htake, Option.some_bind,
      hdrop, ← hcm] at hb
    unfold runStack at hb
    rw [if_neg (closer_not_opener _ hmcl), if_pos hmcl] at hb
    cases hb

theorem opener_hasOpener (e : List Char) (c : Char) (hc : c ∈ e)
    (hco : c ∈ openersL) : hasOpener e = true := by
  simp only [openersL, List.mem_cons, List.not_mem_nil, or_false] at hco
  unfold hasOpener
  rcases hco with rfl | rfl | rfl <;> simp <;> tauto

theorem balanced_bracket_hasOpener (e : List Char) (hb : BalancedB e = true)
    (hbr : hasAnyBracket e = true) : hasOpener e = true := by
  by_contra h
  have hno : ∀ c ∈ e, c ∉ openersL := by
    intro c hc hcop
    exact h (opener_hasOpener e c hc hcop)
  unfold BalancedB at hb
  simp only [decide_eq_true_eq] at hb
  unfold hasAnyBracket at hbr
  obtain ⟨c, hc, hcb⟩ := List.any_eq_true.mp hbr
  have hcb' : c ∈ bracketsL := by simpa using hcb
  have : c ∈ openersL ∨ c ∈ closersL := by
    simp only [bracketsL, openersL, closersL, List.mem_cons,
      List.not_mem_nil, or_false] at hcb' ⊢
    tauto
  rcases this with hop | hcl
  · exact hno c hc hop
  · exact balanced_no_opener_no_closer e hb hno c hc hcl

/-- The recursion of `evaluate_expression` does not look at the exact fuel
value, provided the fuel exceeds the number of opening brackets and the
expression is balanced. -/
theorem evalGo_fuel_irrel :
    ∀ N e n m, countOpeners e ≤ N → BalancedB e = true →
      countOpeners e < n → countOpeners e < m → evalGo n e = evalGo m e := by
  intro N
  induction N using Nat.strong_induction_on with
  | _ N ih =>
    intro e n m hN hb hn hm
    obtain ⟨n', rfl⟩ : ∃ n', n = n' + 1 := ⟨n - 1, by omega⟩
    obtain ⟨m', rfl⟩ : ∃ m', m = m' + 1 := ⟨m - 1, by omega⟩
    simp only [evalGo]
    by_cases hopn : hasOpener e = false
    · rw [if_pos hopn, if_pos hopn]
    · rw [if_neg hopn, if_neg hopn]
      have hop : hasOpener e = true := by
        cases hval : hasOpener e
        · exact absurd hval hopn
        · rfl
      obtain ⟨k, m0, hfc, hob, hkm, hmlen, hmcl, hmfirst, hkop, hknone,
        hinner, hsubst⟩ := bracket_locate e hb hop
      rw [hfc, hob, pySlice_inner]
      cases hcalc : (calculate ((e.take m0).drop (k + 1)) true).1 with
      | none => rfl
      | some ir =>
        have hirfree : brFree ir := calculate_brFree _ _ _ hinner hcalc
        obtain ⟨hbal', hcount⟩ := hsubst ir hirfree
        have hcpos : 0 < countOpeners e := by
          obtain ⟨c, hc, hco⟩ := hasOpener_exists e hop
          exact countOpeners_pos e c hc hco
        rw [pySlice_zero_nat, pySlice_after]
        have hrec := ih (N - 1) (by omega)
          (e.take k ++ ir ++ e.drop (m0 + 1)) n' m'
          (by omega) hbal' (by omega) (by omega)
        have hred : ∀ nn : Nat, (match some ir with
            | none => ((none : Option (List Char)),
                Msg.trace e :: (calculate ((e.take m0).drop (k + 1)) true).2)
            | some inner_result =>
              ((evalGo nn (e.take k ++ inner_result ++ e.drop (m0 + 1))).1,
                Msg.trace e :: ((calculate ((e.take m0).drop (k + 1)) true).2 ++
                  (evalGo nn (e.take k ++ inner_result ++ e.drop (m0 + 1))).2))) =
            ((evalGo nn (e.take k ++ ir ++ e.drop (m0 + 1))).1,
              Msg.trace e :: ((calculate ((e.take m0).drop (k + 1)) true).2 ++
                (evalGo nn (e.take k ++ ir ++ e.drop (m0 + 1))).2)) := fun _ => rfl
        rw [hred n', hred m', hrec]

theorem bracketStep_holds (expr : List Char) (hb : BalancedB expr = true)
    (hbr : hasAnyBracket expr = true) : bracketStepProp expr := by
  have hop := balanced_bracket_hasOpener expr hb hbr
  obtain ⟨k, m0, hfc, hob, hkm, hmlen, hmcl, hmfirst, hkop, hknone,
    hinner, hsubst⟩ := bracket_locate expr hb hop
  unfold bracketStepProp
  rw [hfc, hob]
  simp only [Int.toNat_natCast]
  refine ⟨by omega, by exact_mod_cast hmlen, hmcl, hmfirst, by omega,
    by exact_mod_cast hkm, hkop, hknone, ?_⟩
  rw [pySlice_inner, pySlice_zero_nat, pySlice_after]
  show evalGo (countOpeners expr + 1) expr = _
  simp only [evalGo]
  rw [if_neg (by simp [hop]), hfc, hob, pySlice_inner, pySlice_zero_nat,
    pySlice_after]
  cases hcalc : (calculate ((expr.take m0).drop (k + 1)) true).1 with
  | none => rfl
  | some ir =>
    have hirfree : brFree ir := calculate_brFree _ _ _ hinner hcalc
    obtain ⟨hbal', hcount⟩ := hsubst ir hirfree
    have hred : ∀ f : List Char → Option (List Char) × List Msg,
        (match some ir with
          | none => ((none : Option (List Char)),
              Msg.trace expr :: (calculate ((expr.take m0).drop (k + 1)) true).2)
          | some inner_result =>
            ((f (expr.take k ++ inner_result ++ expr.drop (m0 + 1))).1,
              Msg.trace expr ::
                ((calculate ((expr.take m0).drop (k + 1)) true).2 ++
                  (f (expr.take k ++ inner_result ++ expr.drop (m0 + 1))).2))) =
          ((f (expr.take k ++ ir ++ expr.drop (m0 + 1))).1,
            Msg.trace expr ::
              ((calculate ((expr.take m0).drop (k + 1)) true).2 ++
                (f (expr.take k ++ ir ++ expr.drop (m0 + 1))).2)) := fun _ => rfl
    rw [hred (evalGo (countOpeners expr)), hred evaluate_expression]
    have hfuel : evaluate_expression (expr.take k ++ ir ++ expr.drop (m0 + 1)) =
        evalGo (countOpeners expr) (expr.take k ++ ir ++ expr.drop (m0 + 1)) := by
      unfold evaluate_expression
      rw [hcount]
    rw [hfuel]

/-! ### The claims -/

set_option maxRecDepth 1000000

set_option maxHeartbeats 1000000

/-- C1: for every balanced expression containing brackets, the bracket
resolver locates the first closing bracket in left-to-right order, scans
backward from it to the nearest opening bracket (ignoring bracket kind),
evaluates that innermost region first, substitutes its textual result over
the bracketed span, and recurses; in particular evaluating
`"15+(9*2+(8-4))+5"` yields `"42"`. -/
theorem claim_C1 :
    (∀ expr, BalancedB expr = true → hasAnyBracket expr = true →
      bracketStepProp expr) ∧
    (evaluate_expression (("15+(9*2+(8-4))+5").toList)).1 =
      some (("42").toList) :=
  ⟨fun expr hb hbr => bracketStep_holds expr hb hbr, by decide⟩

/-- Witness for C1 at the balanced bracketed input `"(1+2)"`. -/
theorem claim_C1_witness :
    BalancedB (("(1+2)").toList) = true ∧
    hasAnyBracket (("(1+2)").toList) = true ∧
    bracketStepProp (("(1+2)").toList) :=
  ⟨by decide, by decide, claim_C1.1 (("(1+2)").toList) (by decide) (by decide)⟩

/-- C2: the reducer selects operators by precedence tier — exponent first,
then multiplication/division/modulo, then addition/subtraction — and
`"2+3*4"` evaluates to `"14"`, not `"20"`. -/
theorem claim_C2 :
    (∀ e, find_operator_pos e exponent_tag ≠ -1 →
      which_operator e = find_operator_pos e exponent_tag) ∧
    (∀ e, find_operator_pos e exponent_tag = -1 →
      find_operator_pos e mult_div_tag ≠ -1 →
      which_operator e = find_operator_pos e mult_div_tag) ∧
    (∀ e, find_operator_pos e exponent_tag = -1 →
      find_operator_pos e mult_div_tag = -1 →
      which_operator e = find_operator_pos e add_sub_tag) ∧
    (∀ e p, find_operator_pos e mult_div_tag = p → 0 ≤ p →
      charAt e p.toNat ∈ (['*', '/', '%'] : List Char)) ∧
    (∀ e p, find_operator_pos e add_sub_tag = p → 0 ≤ p →
      charAt e p.toNat ∈ (['+', '-'] : List Char)) ∧
    (calculate (("2+3*4").toList) false).1 = some (("14").toList) :=
  ⟨which_operator_exponent, which_operator_mult_div, which_operator_add_sub,
    find_operator_pos_mult_div_char, find_operator_pos_add_sub_char,
    by decide⟩

/-- Witness for C2 at `"2^3"`, `"2*3"` and `"2+3"`. -/
theorem claim_C2_witness :
    (find_operator_pos (("2^3").toList) exponent_tag ≠ -1 ∧
      which_operator (("2^3").toList) =
        find_operator_pos (("2^3").toList) exponent_tag) ∧
    (find_operator_pos (("2*3").toList) exponent_tag = -1 ∧
      find_operator_pos (("2*3").toList) mult_div_tag ≠ -1 ∧
      which_operator (("2*3").toList) =
        find_operator_pos (("2*3").toList) mult_div_tag) ∧
    (find_operator_pos (("2+3").toList) exponent_tag = -1 ∧
      find_operator_pos (("2+3").toList) mult_div_tag = -1 ∧
      which_operator (("2+3").toList) =
        find_operator_pos (("2+3").toList) add_sub_tag) ∧
    charAt (("2*3").toList) ((1 : Int)).toNat ∈ (['*', '/', '%'] : List Char) ∧
    charAt (("2+3").toList) ((1 : Int)).toNat ∈ (['+', '-'] : List Char) :=
  ⟨⟨by decide, claim_C2.1 _ (by decide)⟩,
   ⟨by decide, by decide, claim_C2.2.1 _ (by decide) (by decide)⟩,
   ⟨by decide, by decide, claim_C2.2.2.1 _ (by decide) (by decide)⟩,
   claim_C2.2.2.2.1 (("2*3").toList) 1 (by decide) (by decide),
   claim_C2.2.2.2.2.1 (("2+3").toList) 1 (by decide) (by decide)⟩

/-- C3: when a flat expression contains `^`, the exponent scan selects the
RIGHTMOST `^` (right-associative exponentiation), and `"2^3^2"` evaluates
to `"512"` (i.e. as `2^(3^2)`). -/
theorem claim_C3 :
    (∀ e p, find_operator_pos e exponent_tag = p → 0 ≤ p →
      p < (e.length : Int) ∧ charAt e p.toNat = '^' ∧
        ∀ j, p.toNat < j → j < e.length → charAt e j ≠ '^') ∧
    (calculate (("2^3^2").toList) false).1 = some (("512").toList) :=
  ⟨fun e p hp hge => find_operator_pos_exponent_spec e p hp hge, by decide⟩

/-- Witness for C3 at `"2^3^2"`, whose rightmost `^` sits at index 3. -/
theorem claim_C3_witness :
    find_operator_pos (("2^3^2").toList) exponent_tag = 3 ∧ (0 : Int) ≤ 3 ∧
    ((3 : Int) < ((("2^3^2").toList).length : Int) ∧
      charAt (("2^3^2").toList) ((3 : Int)).toNat = '^' ∧
      ∀ j, ((3 : Int)).toNat < j → j < (("2^3^2").toList).length →
        charAt (("2^3^2").toList) j ≠ '^') :=
  ⟨by decide, by decide, claim_C3.1 (("2^3^2").toList) 3 (by decide) (by decide)⟩

/-- C4 counterexample: the claim says only the FIRST occurrence of the
extracted sub-expression is replaced.  On `"2*3+2*3"` one reduction step
produces `"6+6"` — both occurrences replaced — whereas first-occurrence
substitution would give `"6+2*3"`. -/
theorem claim_C4_counterexample :
    calcStep (("2*3+2*3").toList) =
      .ok (("2*3").toList) 6 (("6+6").toList) ∧
    replaceFirstOccurrence (("2*3").toList) (("6").toList)
      (("2*3+2*3").toList) = ("6+2*3").toList ∧
    ("6+6").toList ≠ ("6+2*3").toList :=
  ⟨by decide, by decide, by decide⟩

/-- C4 (amended): each reduction step replaces EVERY non-overlapping
textual occurrence of the extracted sub-expression, left to right
(`str.replace` semantics), not only the first. -/
theorem claim_C4 :
    (∀ expr sub a e', calcStep expr = .ok sub a e' →
      e' = replaceAll sub (pyStrNum a) expr) ∧
    (∀ pat rep a b, pat ≠ ([] : List Char) →
      (∀ i, i < a.length →
        pat.isPrefixOf ((a ++ (pat ++ b)).drop i) = false) →
      replaceAll pat rep (a ++ (pat ++ b)) =
        a ++ (rep ++ replaceAll pat rep b)) :=
  ⟨calcStep_ok_subst,
   fun pat rep a b hp h => replaceAll_left_to_right pat rep hp a b h⟩

/-- Witness for C4 at the step on `"5-3"` and the replacement
`"1+2*3+4" → "1+6+4"`. -/
theorem claim_C4_witness :
    (calcStep (("5-3").toList) = .ok (("5-3").toList) 2 (("2").toList) ∧
      ("2").toList = replaceAll (("5-3").toList) (pyStrNum 2) (("5-3").toList)) ∧
    ((("2*3").toList ≠ ([] : List Char)) ∧
      replaceAll (("2*3").toList) (("6").toList)
        ((("1+").toList) ++ ((("2*3").toList) ++ (("+4").toList))) =
        (("1+").toList) ++ ((("6").toList) ++
          replaceAll (("2*3").toList) (("6").toList) (("+4").toList))) :=
  ⟨⟨by decide, claim_C4.1 _ _ _ _ (by decide)⟩,
   ⟨by decide, claim_C4.2 _ _ _ _ (by decide) (by decide)⟩⟩

/-- C5 (code behaviour at the failing input): on `"5+(1/(2-2))"` the inner
division by zero is reported, but evaluation does NOT abort with the error
outcome: the sentinel `"ERROR"` is substituted into the outer expression
(`"5+ERROR"` is even printed) and the subsequent parse of `"ERROR"` as a
number crashes the program (modelled by `none`). -/
theorem claim_C5_code_behavior :
    (evaluate_expression (("5+(1/(2-2))").toList)).1 = none ∧
    Msg.errMsg CalculatorError.divisionByZero ∈
      (evaluate_expression (("5+(1/(2-2))").toList)).2 ∧
    Msg.trace (("5+ERROR").toList) ∈
      (evaluate_expression (("5+(1/(2-2))").toList)).2 :=
  ⟨by decide, by decide, by decide⟩

/-- C6: `"5/0"` is rejected by the validator, specifically by the literal
`"/0"` pre-check (every check preceding it passes), while `"5/(4-4)"`
passes validation and fails only at evaluation time with `DivisionByZero`
(the divisor operand is the computed `0`), surfacing as `"ERROR"`. -/
theorem claim_C6 :
    is_valid_input (("5/0").toList) = some (false, ("5/0").toList) ∧
    occursIn (("/0").toList) (("5/0").toList) = true ∧
    has_leading_or_trailing_op (("5/0").toList) = some false ∧
    has_double_op (("5/0").toList) = false ∧
    is_valid_numbers (("5/0").toList) = true ∧
    (("5/0").toList).all (fun c => c ∈ validCharsL) = true ∧
    is_valid_input (("5/(4-4)").toList) = some (true, ("5/(4-4)").toList) ∧
    do_the_math 5 0 (("/").toList) = .error CalculatorError.divisionByZero ∧
    (evaluate_expression (("5/(4-4)").toList)).1 = some ERRORtext ∧
    Msg.errMsg CalculatorError.divisionByZero ∈
      (evaluate_expression (("5/(4-4)").toList)).2 :=
  ⟨by decide, by decide, by decide, by decide, by decide, by decide,
   by decide, by rfl, by decide, by decide⟩

/-- C7 counterexample: the pipeline does NOT reject `"5++3"`: the
normalizer runs before validation and rewrites it to `"5+3"`, which is
accepted. -/
theorem claim_C7_counterexample :
    is_valid_input (normalize (("5++3").toList)) =
      some (true, ("5+3").toList) := by decide

/-- C7 (amended): `has_double_op` does flag `"5++3"`, but the pipeline
normalizes `"5++3"` to `"5+3"` before validation, so it is accepted and
evaluates to `"8"`; `"5+-3"` is normalized to `"5-3"`, accepted, and
evaluates to `"2"`. -/
theorem claim_C7 :
    has_double_op (("5++3").toList) = true ∧
    normalize (("5++3").toList) = ("5+3").toList ∧
    is_valid_input (("5+3").toList) = some (true, ("5+3").toList) ∧
    (evaluate_expression (("5+3").toList)).1 = some (("8").toList) ∧
    normalize (("5+-3").toList) = ("5-3").toList ∧
    is_valid_input (("5-3").toList) = some (true, ("5-3").toList) ∧
    (evaluate_expression (("5-3").toList)).1 = some (("2").toList) :=
  ⟨by decide, by decide, by decide, by decide, by decide, by decide, by decide⟩

/-- C8 counterexample: the normalizer is NOT idempotent: normalizing
`"*-+(-"` yields `"*-(-"`, and normalizing that again yields `"*("`,
because the second rewrite loop can create a pattern of the first loop. -/
theorem claim_C8_counterexample :
    normalize (normalize (("*-+(-").toList)) ≠ normalize (("*-+(-").toList) :=
  by decide

/-- C8 (amended): normalization is idempotent for every string whose
normal form contains none of the four first-loop sign-collision patterns
(`"*-(-"` and its `/`, `+`, `-` variants); in general a second
normalization can differ. -/
theorem claim_C8 :
    ∀ s, guard1 (normalize s) = false →
      normalize (normalize s) = normalize s :=
  normalize_idem_aux

/-- Witness for C8 at `"5+-3"` (normal form `"5-3"`). -/
theorem claim_C8_witness :
    guard1 (normalize (("5+-3").toList)) = false ∧
    normalize (normalize (("5+-3").toList)) = normalize (("5+-3").toList) :=
  ⟨by decide, claim_C8 _ (by decide)⟩

/-- C9: the normalizer is total — it is a Lean function, defined for every
input string — and each of its three rewrite loops reaches a state with no
remaining matching pattern (the fuel bounds never run out: every
iteration strictly shrinks the string). -/
theorem claim_C9 :
    ∀ s : List Char,
      normalize_unary s =
        stripLeadPlus (normLoop3 (normLoop2 (normLoop1 s))) ∧
      guard1 (normLoop1 s) = false ∧
      guard2 (normLoop2 s) = false ∧
      guard3 (normLoop3 (normLoop2 (normLoop1 s))) = false :=
  fun s => ⟨rfl, normLoop1_guard s, normLoop2_guard s,
    normLoop3_guard (normLoop2 (normLoop1 s))⟩

/-- C10: the nested/quiet flag of `calculate` affects only the printed
trace, never the returned string — proved for every input string, in
particular every bracket-free expression. -/
theorem claim_C10 :
    ∀ s : List Char, (calculate s true).1 = (calculate s false).1 :=
  fun s => calculate_fst_flag s true false

end HoldenRowland
